import Mathlib

/-!
# connect-dots: the puzzle session of `src/js/game.js`

A shallow embedding of the module-level session variables of `game.js`
(`dots`, `currentIndex`, `timeLeft`, `timer`, `isDragging`, `connectedLines`,
`dragPos`, the status panel) and of the handlers that change them
(`setupGame`, `updateTimer`, `onStart`, `onMove`, `onEnd`, `clearConnections`).

Modelling conventions.

* Coordinates are integers (pixel coordinates of the level file and of the
  pointer).  On integers `Math.hypot(dx, dy) <= 14` is the comparison
  `dx*dx + dy*dy <= 14*14`.
* A JavaScript value that may be `undefined` (an array read) or `null`
  (`dragPos`) is an `Option`.
* Reading a property of `null` or `undefined` raises a `TypeError`.  A handler
  therefore returns an `Outcome`: it ran to its end (`done`) or an exception
  left it (`threw`).  Either way the session variables keep the values
  assigned so far, which is the state the outcome carries.
* The canvas is not modelled; `drawDots` keeps only the property reads that can
  raise.  The interval behind `timer` is a boolean: it is either active or not.
* Leaving the page (`nextLevel`, `restartGame`, `goHome`) ends the session and
  is not modelled.
-/

namespace ConnectDots

/-- Pointer position as returned by `getPos`. -/
structure Pos where
  x : Int
  y : Int
deriving DecidableEq, Repr

/-- One entry of the level's `dots` array. -/
structure Dot where
  x : Int
  y : Int
deriving DecidableEq, Repr

/-- An object pushed on `connectedLines`: `fromDot` and `toDot` are the fields `from` and `to`.  Both ends
come from reads of `dots`, so they are `undefined` when `none`. -/
structure ConnectionLine where
  fromDot : Option Dot
  toDot : Option Dot
  correct : Bool
deriving DecidableEq, Repr

/-- What `statusDiv.innerHTML` shows. -/
inductive Status where
  | blank
  | lose
  | levelComplete
  | winner
deriving DecidableEq, Repr

/-- The module-level variables of `game.js`. -/
@[ext]
structure Session where
  level : String
  dots : List Dot
  currentIndex : Nat
  timeLeft : Int
  timer : Bool
  isDragging : Bool
  connectedLines : List ConnectionLine
  dragPos : Option Pos
  status : Status
deriving DecidableEq, Repr

/-- Result of running a handler: the session variables afterwards, and whether
a `TypeError` cut the handler short. -/
inductive Outcome where
  | done (s : Session)
  | threw (s : Session)
deriving DecidableEq, Repr

/-- Session variables after the handler. -/
def Outcome.state : Outcome → Session
  | .done s => s
  | .threw s => s

/-- Sequencing of statements: what follows runs only if no exception is pending. -/
def Outcome.andThen (o : Outcome) (f : Session → Outcome) : Outcome :=
  match o with
  | .done s => f s
  | .threw s => .threw s

/-- The function `nearDot(pos, dot, radius)`, for a non-null `pos`. -/
def nearDot (pos : Pos) (dot : Dot) (radius : Int) : Bool :=
  let dx := pos.x - dot.x
  let dy := pos.y - dot.y
  decide (dx * dx + dy * dy ≤ radius * radius)

/-- The function `nextLevelName(curr)`. -/
def nextLevelName (curr : String) : Option String :=
  if curr = "easy" then some "medium"
  else if curr = "medium" then some "hard"
  else none

/-- The function `drawDots()`: it changes no session variable; it raises when a
committed line has an undefined end (`line.from.x`, `line.to.x`) or when the
preview reads `prev.x` of an undefined `dots[currentIndex - 1]`. -/
def drawDots (s : Session) : Outcome :=
  if s.connectedLines.all (fun l => l.fromDot.isSome && l.toDot.isSome) then
    if s.isDragging && s.dragPos.isSome && decide (0 < s.currentIndex) then
      match s.dots[s.currentIndex - 1]? with
      | some _ => .done s
      | none => .threw s
    else .done s
  else .threw s

/-- The function `setupGame()`. -/
def setupGame (s : Session) : Outcome :=
  let s1 := { s with currentIndex := 0, connectedLines := [], status := Status.blank }
  (drawDots s1).andThen fun s2 =>
    .done { s2 with timeLeft := 30, timer := true }

/-- The function `showLose()`. -/
def showLose (s : Session) : Session :=
  { s with status := Status.lose }

/-- The function `updateTimer()`, the interval callback. -/
def updateTimer (s : Session) : Outcome :=
  let s1 := { s with timeLeft := s.timeLeft - 1 }
  if s1.timeLeft ≤ 0 then
    .done (showLose { s1 with timer := false })
  else .done s1

/-- The function `showFilledShape()`, as far as the status panel goes. -/
def showFilledShape (s : Session) : Session :=
  if s.dots.length = 0 then s
  else
    match nextLevelName s.level with
    | some _ => { s with status := Status.levelComplete }
    | none => { s with status := Status.winner }

/-- The function `onStart(e)`, with `p = getPos(e)`. -/
def onStart (s : Session) (p : Pos) : Outcome :=
  if s.timeLeft ≤ 0 then .done s
  else drawDots { s with isDragging := true, dragPos := some p }

/-- The callback that `onMove` passes to `dots.forEach`, run on `dot` at index `i`. -/
def onMoveVisit (s : Session) (dot : Dot) (i : Nat) : Outcome :=
  match s.dragPos with
  | none => .threw s
  | some pos =>
    if nearDot pos dot 14 then
      if i = s.currentIndex then
        let s1 :=
          if 0 < s.currentIndex then
            { s with connectedLines := s.connectedLines ++
                [{ fromDot := s.dots[s.currentIndex - 1]?, toDot := some dot, correct := true }] }
          else s
        let s2 := { s1 with currentIndex := s1.currentIndex + 1, dragPos := none }
        (drawDots s2).andThen fun s3 =>
          if s3.currentIndex = s3.dots.length then
            let s4 := { s3 with
              timer := false
              isDragging := false
              connectedLines := s3.connectedLines ++
                [{ fromDot := s3.dots[s3.dots.length - 1]?, toDot := s3.dots[0]?, correct := true }] }
            (drawDots s4).andThen fun s5 => .done (showFilledShape s5)
          else .done s3
      else
        if 0 < s.currentIndex then
          drawDots { s with connectedLines := s.connectedLines ++
            [{ fromDot := s.dots[s.currentIndex - 1]?, toDot := some dot, correct := false }] }
        else .done s
    else .done s

/-- The loop `dots.forEach((dot, i) => ...)` of `onMove` over the dots `ds`
that sit at the indices `i`, `i + 1`, ... -/
def forEachDot (ds : List Dot) (i : Nat) (s : Session) : Outcome :=
  match ds with
  | [] => .done s
  | d :: rest => (onMoveVisit s d i).andThen (forEachDot rest (i + 1))

/-- The function `onMove(e)`, with `p = getPos(e)`. -/
def onMove (s : Session) (p : Pos) : Outcome :=
  if !s.isDragging || decide (s.timeLeft ≤ 0) then .done s
  else
    (drawDots { s with dragPos := some p }).andThen fun s1 =>
      forEachDot s1.dots 0 s1

/-- The function `onEnd()`. -/
def onEnd (s : Session) : Outcome :=
  drawDots { s with isDragging := false, dragPos := none }

/-- The function `clearConnections()`. -/
def clearConnections (s : Session) : Outcome :=
  drawDots { s with connectedLines := [], currentIndex := 0 }

/-- What the page can receive after the level has loaded. -/
inductive Event where
  | pointerDown (p : Pos)
  | pointerMove (p : Pos)
  | pointerUp
  | timerTick
  | clear
deriving DecidableEq, Repr

/-- One event: the session variables after its handler.  The interval calls
`updateTimer` only while it is active, so a tick of a cleared interval does
not occur. -/
def step (s : Session) : Event → Session
  | .pointerDown p => (onStart s p).state
  | .pointerMove p => (onMove s p).state
  | .pointerUp => (onEnd s).state
  | .timerTick => if s.timer then (updateTimer s).state else s
  | .clear => (clearConnections s).state

/-- A sequence of events, oldest first. -/
def run (s : Session) (evs : List Event) : Session :=
  evs.foldl step s

/-- Number of committed lines whose `correct` flag is set. -/
def correctCount (ls : List ConnectionLine) : Nat :=
  (ls.filter (fun l => l.correct)).length

/-- The conditions of the data model on a session: `currentIndex` lies in
`[0, dots.length]` and every committed line joins two dots. -/
def Session.wf (s : Session) : Prop :=
  s.currentIndex ≤ s.dots.length ∧
    ∀ l ∈ s.connectedLines, l.fromDot.isSome = true ∧ l.toDot.isSome = true

/-- The three-dot level of the scenario. -/
def easyDots : List Dot := [⟨10, 10⟩, ⟨50, 10⟩, ⟨30, 50⟩]

/-- The module-level variables as `game.js` declares them, with the level
identifier and the dots that the fetch handler stores. -/
def loaded (level : String) (dots : List Dot) : Session :=
  { level := level, dots := dots, currentIndex := 0, timeLeft := 30, timer := false,
    isDragging := false, connectedLines := [], dragPos := none, status := Status.blank }

/-! ## Auxiliary definitions used in the statements and proofs -/

/-- Every committed line of the list joins two defined dots. -/
def AllDefined (ls : List ConnectionLine) : Prop :=
  ∀ l ∈ ls, l.fromDot.isSome = true ∧ l.toDot.isSome = true

/-- The line that a correct hit on `d` commits: none for the first dot. -/
def hitLines (s : Session) (d : Dot) : List ConnectionLine :=
  if 0 < s.currentIndex then
    [{ fromDot := s.dots[s.currentIndex - 1]?, toDot := some d, correct := true }]
  else []

/-- The line that a wrong hit on `d` commits: none before the first dot. -/
def missLines (s : Session) (d : Dot) : List ConnectionLine :=
  if 0 < s.currentIndex then
    [{ fromDot := s.dots[s.currentIndex - 1]?, toDot := some d, correct := false }]
  else []

/-- The closing line pushed at completion. -/
def closingLine (dots : List Dot) : ConnectionLine :=
  { fromDot := dots[dots.length - 1]?, toDot := dots[0]?, correct := true }

/-- Session variables after a correct hit on `d` that does not complete the level. -/
def afterHit (s : Session) (d : Dot) : Session :=
  { s with
    connectedLines := s.connectedLines ++ hitLines s d
    currentIndex := s.currentIndex + 1
    dragPos := none }

/-- Session variables after a correct hit on the last dot `d`, once the closing
line is pushed and before the status panel changes. -/
def beforeShow (s : Session) (d : Dot) : Session :=
  { s with
    connectedLines := s.connectedLines ++ hitLines s d ++ [closingLine s.dots]
    currentIndex := s.currentIndex + 1
    dragPos := none
    timer := false
    isDragging := false }

/-- Session variables after a correct hit on the last dot `d`. -/
def afterCompletion (s : Session) (d : Dot) : Session :=
  showFilledShape (beforeShow s d)

/-- The session of the timeout scenario: the countdown has reached 0 during a
drag with one dot connected. -/
def timedOut : Session :=
  { level := "easy", dots := easyDots, currentIndex := 1, timeLeft := 0, timer := false,
    isDragging := true, connectedLines := [], dragPos := none, status := Status.lose }

/-- What every state of a round satisfies: `currentIndex` is within
`[0, dots.length]`, the committed lines join defined dots, the correct ones
are fewer than the dots reached (and at most `dots.length` once the level is
complete), the time left is not negative, is positive while the countdown
runs, and is zero exactly in the loss state. -/
def Inv (s : Session) : Prop :=
  s.currentIndex ≤ s.dots.length ∧
    AllDefined s.connectedLines ∧
    correctCount s.connectedLines ≤ s.dots.length ∧
    (s.currentIndex < s.dots.length → correctCount s.connectedLines ≤ s.currentIndex - 1) ∧
    0 ≤ s.timeLeft ∧
    (s.timer = true → 0 < s.timeLeft) ∧
    (s.status = Status.lose ↔ s.timeLeft = 0)

/-- A dragging session with no dot connected yet, on the three-dot level. -/
def freshDrag : Session :=
  run (setupGame (loaded "easy" easyDots)).state [.pointerDown ⟨30, 100⟩]

/-- A dragging session with dot 0 connected, on the three-dot level. -/
def oneConnected : Session :=
  run (setupGame (loaded "easy" easyDots)).state [.pointerDown ⟨10, 10⟩, .pointerMove ⟨10, 10⟩]

/-- Progress of the loop of `onMove` started on `s` with pointer position `p`:
only wrong hits so far, a correct hit short of the last dot, or the level
completed. -/
def Progress (s : Session) (p : Pos) (o : Outcome) : Prop :=
  (o.state.currentIndex = s.currentIndex ∧
      ∀ t, o = .done t → AllDefined t.connectedLines ∧
        ∃ wrong, (∀ l ∈ wrong, l.correct = false) ∧
          t = { s with dragPos := some p, connectedLines := s.connectedLines ++ wrong }) ∨
    (o.state.currentIndex = s.currentIndex + 1 ∧ o.state.currentIndex ≠ s.dots.length ∧
      o.state.dragPos = none) ∨
    (∃ wrong d, (∀ l ∈ wrong, l.correct = false) ∧ s.dots[s.currentIndex]? = some d ∧
      s.currentIndex + 1 = s.dots.length ∧
      o.state = afterCompletion
        { s with dragPos := some p, connectedLines := s.connectedLines ++ wrong } d)

/-- The level of one dot. -/
def singleDot : List Dot := [⟨20, 20⟩]

/-- A dragging session on the one-dot level, no dot connected yet. -/
def singleDrag : Session :=
  run (setupGame (loaded "hard" singleDot)).state [.pointerDown ⟨0, 0⟩]

/-- The correct lines `dots[i] -> dots[i+1]` for the first `k` dots, in order. -/
def orderedLines (dots : List Dot) (k : Nat) : List ConnectionLine :=
  (List.range (k - 1)).map fun i =>
    { fromDot := dots[i]?, toDot := dots[i + 1]?, correct := true }

/-- The session in the middle of an in-order drag of the round set up from
`s0`: `k` dots connected, the pointer down, `dragPos` as given. -/
def midDrag (s0 : Session) (k : Nat) (dp : Option Pos) : Session :=
  { s0 with
    currentIndex := k
    connectedLines := orderedLines s0.dots k
    status := Status.blank
    timeLeft := 30
    timer := true
    isDragging := true
    dragPos := dp }

/-- The session once an in-order drag of the round set up from `s0` has
connected every dot. -/
def completed (s0 : Session) : Session :=
  showFilledShape { s0 with
    currentIndex := s0.dots.length
    connectedLines := orderedLines s0.dots s0.dots.length ++ [closingLine s0.dots]
    status := Status.blank
    timeLeft := 30
    timer := false
    isDragging := false
    dragPos := none }

/-- Indices of the dots within the hit radius of the pointer position `p`. -/
def dotsInReach (dots : List Dot) (p : Pos) : List Nat :=
  (List.range dots.length).filter fun j =>
    match dots[j]? with
    | some d => nearDot p d 14
    | none => false

/-- The incorrect lines that a loop without a correct hit commits for the
dots `ds`: one per dot within reach of `p`, in array order, once a first dot
is connected. -/
def wrongLines (s : Session) (p : Pos) (ds : List Dot) : List ConnectionLine :=
  if 0 < s.currentIndex then
    (ds.filter fun e => nearDot p e 14).map fun e =>
      { fromDot := s.dots[s.currentIndex - 1]?, toDot := some e, correct := false }
  else []

/-- A level whose three dots are all within 14px of the point `(6, 0)`. -/
def tripleDots : List Dot := [⟨0, 0⟩, ⟨10, 0⟩, ⟨12, 0⟩]

/-- A dragging session on the level `tripleDots` with dot 0 connected. -/
def tripleDrag : Session :=
  run (setupGame (loaded "medium" tripleDots)).state
    [.pointerDown ⟨-5, 0⟩, .pointerMove ⟨-5, 0⟩]

/-- A drag over the three-dot level that visits the dots in order and sends
two move events while the pointer is on dot 0. -/
def lingerPath : List Pos := [⟨10, 10⟩, ⟨11, 10⟩, ⟨50, 10⟩, ⟨30, 50⟩]

/-- The level of the overlap scenario: dots 0 and 1 are 10px apart. -/
def overlapDots : List Dot := [⟨0, 0⟩, ⟨10, 0⟩, ⟨100, 100⟩]

/-- A dragging session on the overlap level with dot 0 connected. -/
def overlapDrag : Session :=
  run (setupGame (loaded "medium" overlapDots)).state
    [.pointerDown ⟨-5, 0⟩, .pointerMove ⟨-5, 0⟩]

/-! ## Basic facts about outcomes and `drawDots` -/

@[simp] theorem state_done (s : Session) : (Outcome.done s).state = s := rfl

@[simp] theorem state_threw (s : Session) : (Outcome.threw s).state = s := rfl

@[simp] theorem andThen_done (s : Session) (f : Session → Outcome) :
    (Outcome.done s).andThen f = f s := rfl

@[simp] theorem andThen_threw (s : Session) (f : Session → Outcome) :
    (Outcome.threw s).andThen f = .threw s := rfl

theorem allDefined_iff_all (ls : List ConnectionLine) :
    ls.all (fun l => l.fromDot.isSome && l.toDot.isSome) = true ↔ AllDefined ls := by
  simp [AllDefined, List.all_eq_true]

theorem allDefined_nil : AllDefined [] := by
  intro l hl
  cases hl

theorem allDefined_append {ls ms : List ConnectionLine} :
    AllDefined (ls ++ ms) ↔ AllDefined ls ∧ AllDefined ms := by
  simp only [AllDefined, List.mem_append]
  constructor
  · intro h
    exact ⟨fun l hl => h l (Or.inl hl), fun l hl => h l (Or.inr hl)⟩
  · rintro ⟨h1, h2⟩ l (hl | hl)
    · exact h1 l hl
    · exact h2 l hl

theorem allDefined_singleton (l : ConnectionLine) :
    AllDefined [l] ↔ l.fromDot.isSome = true ∧ l.toDot.isSome = true := by
  simp [AllDefined]

/-- The renderer assigns no session variable. -/
@[simp] theorem drawDots_state (s : Session) : (drawDots s).state = s := by
  unfold drawDots
  split
  · split
    · split <;> rfl
    · rfl
  · rfl

theorem drawDots_cases (s : Session) : drawDots s = .done s ∨ drawDots s = .threw s := by
  unfold drawDots
  split
  · split
    · split
      · exact Or.inl rfl
      · exact Or.inr rfl
    · exact Or.inl rfl
  · exact Or.inr rfl

/-- When the renderer returns, every committed line had two defined ends. -/
theorem drawDots_done_allDefined {s t : Session} (h : drawDots s = .done t) :
    t = s ∧ AllDefined s.connectedLines := by
  have hst : t = s := by
    have := congrArg Outcome.state h
    simpa using this.symm
  refine ⟨hst, ?_⟩
  by_contra hnot
  rw [← allDefined_iff_all] at hnot
  unfold drawDots at h
  rw [if_neg hnot] at h
  cases h

/-- The renderer returns when the lines are defined and the preview has a
previous dot to start from. -/
theorem drawDots_done_of {s : Session} (hl : AllDefined s.connectedLines)
    (hp : s.isDragging = false ∨ s.dragPos = none ∨ s.currentIndex ≤ s.dots.length) :
    drawDots s = .done s := by
  unfold drawDots
  rw [if_pos ((allDefined_iff_all _).2 hl)]
  split
  · rename_i hc
    simp only [Bool.and_eq_true, decide_eq_true_eq] at hc
    obtain ⟨⟨hd, hs⟩, hpos⟩ := hc
    rcases hp with hp | hp | hp
    · rw [hp] at hd
      cases hd
    · rw [hp] at hs
      cases hs
    · have hlt : s.currentIndex - 1 < s.dots.length := by omega
      rw [List.getElem?_eq_getElem hlt]
  · rfl

/-! ## The loop of `onMove` -/

theorem forEachDot_nil (i : Nat) (s : Session) : forEachDot [] i s = .done s := rfl

theorem forEachDot_cons (d : Dot) (rest : List Dot) (i : Nat) (s : Session) :
    forEachDot (d :: rest) i s = (onMoveVisit s d i).andThen (forEachDot rest (i + 1)) := rfl

theorem drop_cons_getElem? {dots ds : List Dot} {d : Dot} {i : Nat}
    (h : dots.drop i = d :: ds) : dots[i]? = some d ∧ dots.drop (i + 1) = ds := by
  constructor
  · have h0 : (dots.drop i)[0]? = some d := by rw [h]; simp
    simpa [List.getElem?_drop] using h0
  · have h1 : (dots.drop i).drop 1 = ds := by rw [h]; rfl
    simpa [List.drop_drop, Nat.add_comm] using h1

/-- Loop rule: a property of outcomes that every visit of a dot of `dots`
keeps, holds of the whole loop. -/
theorem forEachDot_invariant (P : Outcome → Prop) (dots : List Dot)
    (hstep : ∀ t d i, dots[i]? = some d → P (.done t) → P (onMoveVisit t d i)) :
    ∀ (ds : List Dot) (i : Nat) (t : Session),
      dots.drop i = ds → P (.done t) → P (forEachDot ds i t) := by
  intro ds
  induction ds with
  | nil =>
    intro i t _ ht
    exact ht
  | cons d rest ih =>
    intro i t hdrop ht
    obtain ⟨hd, hrest⟩ := drop_cons_getElem? hdrop
    have hv := hstep t d i hd ht
    rw [forEachDot_cons]
    cases hvis : onMoveVisit t d i with
    | done t1 =>
      rw [hvis] at hv
      exact ih (i + 1) t1 hrest hv
    | threw t1 =>
      rw [hvis] at hv
      exact hv

/-! ## One visit of the loop -/

theorem visit_null {s : Session} (d : Dot) (i : Nat) (h : s.dragPos = none) :
    onMoveVisit s d i = .threw s := by
  unfold onMoveVisit
  rw [h]

theorem visit_far {s : Session} {p : Pos} {d : Dot} (i : Nat) (h : s.dragPos = some p)
    (hfar : nearDot p d 14 = false) : onMoveVisit s d i = .done s := by
  unfold onMoveVisit
  rw [h]
  simp [hfar]

theorem visit_wrong {s : Session} {p : Pos} {d : Dot} {i : Nat} (h : s.dragPos = some p)
    (hnear : nearDot p d 14 = true) (hi : i ≠ s.currentIndex) :
    onMoveVisit s d i =
      if 0 < s.currentIndex then
        drawDots { s with connectedLines := s.connectedLines ++ missLines s d }
      else .done s := by
  unfold onMoveVisit missLines
  rw [h]
  simp only [hnear, if_true, if_neg hi]
  split
  · rfl
  · rfl

theorem hitLines_allDefined {s : Session} {d : Dot} {i : Nat} (hi : i = s.currentIndex)
    (hd : s.dots[i]? = some d) : AllDefined (hitLines s d) := by
  unfold hitLines
  split
  · rename_i hpos
    rw [allDefined_singleton]
    have hlt : i < s.dots.length := by
      by_contra hge
      rw [List.getElem?_eq_none (by omega)] at hd
      cases hd
    have hlt1 : s.currentIndex - 1 < s.dots.length := by omega
    simp [List.getElem?_eq_getElem hlt1]
  · exact allDefined_nil

theorem closingLine_allDefined {dots : List Dot} (h : 0 < dots.length) :
    AllDefined [closingLine dots] := by
  rw [allDefined_singleton]
  have h1 : dots.length - 1 < dots.length := by omega
  simp [closingLine, List.getElem?_eq_getElem h1, List.getElem?_eq_getElem h]

theorem visit_correct {s : Session} {p : Pos} {d : Dot} {i : Nat} (h : s.dragPos = some p)
    (hnear : nearDot p d 14 = true) (hi : i = s.currentIndex) (hd : s.dots[i]? = some d)
    (hall : AllDefined s.connectedLines) :
    onMoveVisit s d i =
      if s.currentIndex + 1 = s.dots.length then .done (afterCompletion s d)
      else .done (afterHit s d) := by
  have hlt : i < s.dots.length := by
    by_contra hge
    rw [List.getElem?_eq_none (by omega)] at hd
    cases hd
  have hhit := hitLines_allDefined hi hd
  have hA : AllDefined (s.connectedLines ++ hitLines s d) :=
    allDefined_append.2 ⟨hall, hhit⟩
  have hC : AllDefined (s.connectedLines ++ hitLines s d ++ [closingLine s.dots]) :=
    allDefined_append.2 ⟨hA, closingLine_allDefined (by omega)⟩
  have d1 : drawDots (afterHit s d) = .done (afterHit s d) :=
    drawDots_done_of hA (Or.inr (Or.inl rfl))
  have d2 : drawDots { afterHit s d with
        timer := false
        isDragging := false
        connectedLines := s.connectedLines ++ hitLines s d ++ [closingLine s.dots] } =
      .done _ := drawDots_done_of hC (Or.inl rfl)
  unfold onMoveVisit
  rw [h]
  simp only [hnear, if_true, if_pos hi]
  by_cases hpos : 0 < s.currentIndex
  · simp only [hitLines, if_pos hpos, afterHit] at d1 d2
    simp only [if_pos hpos, d1, andThen_done]
    split
    · simp only [closingLine] at d2
      simp only [d2, andThen_done, afterCompletion, beforeShow, hitLines, if_pos hpos,
        closingLine]
    · simp only [afterHit, hitLines, if_pos hpos]
  · simp only [hitLines, if_neg hpos, afterHit, List.append_nil] at d1 d2
    simp only [if_neg hpos, d1, andThen_done]
    split
    · simp only [closingLine] at d2
      simp only [d2, andThen_done, afterCompletion, beforeShow, hitLines, if_neg hpos,
        closingLine, List.append_nil]
    · simp only [afterHit, hitLines, if_neg hpos, List.append_nil]

@[simp] theorem showFilledShape_dots (s : Session) : (showFilledShape s).dots = s.dots := by
  unfold showFilledShape
  split
  · rfl
  · split <;> rfl

@[simp] theorem showFilledShape_currentIndex (s : Session) :
    (showFilledShape s).currentIndex = s.currentIndex := by
  unfold showFilledShape
  split
  · rfl
  · split <;> rfl

@[simp] theorem showFilledShape_connectedLines (s : Session) :
    (showFilledShape s).connectedLines = s.connectedLines := by
  unfold showFilledShape
  split
  · rfl
  · split <;> rfl

@[simp] theorem showFilledShape_timeLeft (s : Session) :
    (showFilledShape s).timeLeft = s.timeLeft := by
  unfold showFilledShape
  split
  · rfl
  · split <;> rfl

@[simp] theorem showFilledShape_timer (s : Session) : (showFilledShape s).timer = s.timer := by
  unfold showFilledShape
  split
  · rfl
  · split <;> rfl

@[simp] theorem showFilledShape_isDragging (s : Session) :
    (showFilledShape s).isDragging = s.isDragging := by
  unfold showFilledShape
  split
  · rfl
  · split <;> rfl

@[simp] theorem showFilledShape_dragPos (s : Session) :
    (showFilledShape s).dragPos = s.dragPos := by
  unfold showFilledShape
  split
  · rfl
  · split <;> rfl

@[simp] theorem showFilledShape_level (s : Session) : (showFilledShape s).level = s.level := by
  unfold showFilledShape
  split
  · rfl
  · split <;> rfl

theorem showFilledShape_status (s : Session) :
    (showFilledShape s).status = s.status ∨ (showFilledShape s).status = Status.levelComplete ∨
      (showFilledShape s).status = Status.winner := by
  unfold showFilledShape
  split
  · exact Or.inl rfl
  · split
    · exact Or.inr (Or.inl rfl)
    · exact Or.inr (Or.inr rfl)

/-- A wrong hit, on any session: the line is pushed (when there is a previous
dot) whether or not the renderer then raises. -/
theorem visit_wrong_state {s : Session} {p : Pos} {d : Dot} {i : Nat}
    (h : s.dragPos = some p) (hnear : nearDot p d 14 = true) (hi : i ≠ s.currentIndex) :
    (onMoveVisit s d i).state =
      { s with connectedLines := s.connectedLines ++ missLines s d } := by
  rw [visit_wrong h hnear hi]
  split
  · rw [drawDots_state]
  · rename_i hpos
    simp [missLines, hpos]

/-- A correct hit, on any session: `currentIndex` is advanced; the closing line
follows when the last dot was hit and the renderer did not raise. -/
theorem visit_correct_state {s : Session} {p : Pos} {d : Dot} {i : Nat}
    (h : s.dragPos = some p) (hnear : nearDot p d 14 = true) (hi : i = s.currentIndex) :
    (onMoveVisit s d i).state = afterHit s d ∨
      (s.currentIndex + 1 = s.dots.length ∧
        ((onMoveVisit s d i).state = beforeShow s d ∨
          (onMoveVisit s d i).state = afterCompletion s d)) := by
  have hcases := drawDots_cases (afterHit s d)
  have hcases2 := drawDots_cases { afterHit s d with
        timer := false
        isDragging := false
        connectedLines := s.connectedLines ++ hitLines s d ++ [closingLine s.dots] }
  unfold onMoveVisit
  rw [h]
  simp only [hnear, if_true, if_pos hi]
  by_cases hpos : 0 < s.currentIndex
  · simp only [hitLines, if_pos hpos, afterHit, closingLine] at hcases hcases2
    simp only [if_pos hpos]
    rcases hcases with d1 | d1
    · simp only [d1, andThen_done]
      split
      · rename_i hn
        refine Or.inr ⟨hn, ?_⟩
        rcases hcases2 with d2 | d2
        · simp only [d2, andThen_done, state_done, afterCompletion, beforeShow, hitLines,
            if_pos hpos, closingLine]
          exact Or.inr trivial
        · simp only [d2, andThen_threw, state_threw, beforeShow, hitLines, if_pos hpos,
            closingLine]
          exact Or.inl trivial
      · simp only [state_done, afterHit, hitLines, if_pos hpos]
        exact Or.inl trivial
    · simp only [d1, andThen_threw, state_threw, afterHit, hitLines, if_pos hpos]
      exact Or.inl trivial
  · simp only [hitLines, if_neg hpos, afterHit, closingLine, List.append_nil] at hcases hcases2
    simp only [if_neg hpos]
    rcases hcases with d1 | d1
    · simp only [d1, andThen_done]
      split
      · rename_i hn
        refine Or.inr ⟨hn, ?_⟩
        rcases hcases2 with d2 | d2
        · simp only [d2, andThen_done, state_done, afterCompletion, beforeShow, hitLines,
            if_neg hpos, closingLine, List.append_nil]
          exact Or.inr trivial
        · simp only [d2, andThen_threw, state_threw, beforeShow, hitLines, if_neg hpos,
            closingLine, List.append_nil]
          exact Or.inl trivial
      · simp only [state_done, afterHit, hitLines, if_neg hpos, List.append_nil]
        exact Or.inl trivial
    · simp only [d1, andThen_threw, state_threw, afterHit, hitLines, if_neg hpos,
        List.append_nil]
      exact Or.inl trivial

/-- The three ways a visit leaves the session variables: untouched, a wrong
hit, or a correct hit. -/
theorem visit_state_cases (s : Session) (d : Dot) (i : Nat) :
    (onMoveVisit s d i).state = s ∨
      (∃ p, s.dragPos = some p ∧ nearDot p d 14 = true ∧ i ≠ s.currentIndex ∧
        (onMoveVisit s d i).state =
          { s with connectedLines := s.connectedLines ++ missLines s d }) ∨
      (∃ p, s.dragPos = some p ∧ nearDot p d 14 = true ∧ i = s.currentIndex ∧
        ((onMoveVisit s d i).state = afterHit s d ∨
          (s.currentIndex + 1 = s.dots.length ∧
            ((onMoveVisit s d i).state = beforeShow s d ∨
              (onMoveVisit s d i).state = afterCompletion s d)))) := by
  rcases Option.eq_none_or_eq_some s.dragPos with hp | ⟨p, hp⟩
  · left
    rw [visit_null d i hp]
    rfl
  · cases hn : nearDot p d 14 with
    | false =>
      left
      rw [visit_far i hp hn]
      rfl
    | true =>
      by_cases hi : i = s.currentIndex
      · right
        right
        exact ⟨p, hp, hn, hi, visit_correct_state hp hn hi⟩
      · right
        left
        exact ⟨p, hp, hn, hi, visit_wrong_state hp hn hi⟩

theorem visit_dots (s : Session) (d : Dot) (i : Nat) :
    (onMoveVisit s d i).state.dots = s.dots := by
  rcases visit_state_cases s d i with h | ⟨_, _, _, _, h⟩ | ⟨_, _, _, _, h | ⟨_, h | h⟩⟩ <;>
    rw [h] <;> simp [afterHit, beforeShow, afterCompletion]

theorem visit_timeLeft (s : Session) (d : Dot) (i : Nat) :
    (onMoveVisit s d i).state.timeLeft = s.timeLeft := by
  rcases visit_state_cases s d i with h | ⟨_, _, _, _, h⟩ | ⟨_, _, _, _, h | ⟨_, h | h⟩⟩ <;>
    rw [h] <;> simp [afterHit, beforeShow, afterCompletion]

/-- A visit advances `currentIndex` by one and clears `dragPos`, or keeps it. -/
theorem visit_currentIndex (s : Session) (d : Dot) (i : Nat) :
    (onMoveVisit s d i).state.currentIndex = s.currentIndex ∨
      ((onMoveVisit s d i).state.currentIndex = s.currentIndex + 1 ∧
        (onMoveVisit s d i).state.dragPos = none) := by
  rcases visit_state_cases s d i with h | ⟨_, _, _, _, h⟩ | ⟨_, _, _, _, h | ⟨_, h | h⟩⟩ <;>
    rw [h] <;> simp [afterHit, beforeShow, afterCompletion]

/-! ## The handlers -/

theorem onStart_state (s : Session) (p : Pos) :
    (onStart s p).state =
      if s.timeLeft ≤ 0 then s else { s with isDragging := true, dragPos := some p } := by
  unfold onStart
  split
  · rfl
  · rw [drawDots_state]

theorem onEnd_state (s : Session) :
    (onEnd s).state = { s with isDragging := false, dragPos := none } := by
  unfold onEnd
  rw [drawDots_state]

theorem clearConnections_done (s : Session) :
    clearConnections s = .done { s with connectedLines := [], currentIndex := 0 } := by
  unfold clearConnections
  exact drawDots_done_of allDefined_nil (Or.inr (Or.inr (Nat.zero_le _)))

theorem updateTimer_state (s : Session) :
    (updateTimer s).state =
      if s.timeLeft - 1 ≤ 0 then
        { s with timeLeft := s.timeLeft - 1, timer := false, status := Status.lose }
      else { s with timeLeft := s.timeLeft - 1 } := by
  unfold updateTimer showLose
  simp only
  split <;> rfl

theorem setupGame_done (s : Session) :
    setupGame s = .done { s with
      currentIndex := 0, connectedLines := [], status := Status.blank,
      timeLeft := 30, timer := true } := by
  unfold setupGame
  have h : drawDots { s with currentIndex := 0, connectedLines := [], status := Status.blank } =
      .done _ := drawDots_done_of allDefined_nil (Or.inr (Or.inr (Nat.zero_le _)))
  simp only [h, andThen_done]

theorem onMove_idle {s : Session} (p : Pos) (h : s.isDragging = false ∨ s.timeLeft ≤ 0) :
    onMove s p = .done s := by
  unfold onMove
  rw [if_pos]
  rcases h with h | h
  · simp [h]
  · simp [h]

theorem onMove_active {s : Session} (p : Pos) (hd : s.isDragging = true) (ht : 0 < s.timeLeft) :
    onMove s p =
      (drawDots { s with dragPos := some p }).andThen fun s1 => forEachDot s1.dots 0 s1 := by
  unfold onMove
  rw [if_neg]
  simp only [hd, Bool.not_true, Bool.false_or, decide_eq_true_eq]
  omega

/-- Loop rule for the whole handler: a property that holds once the pointer
position is stored and that every visit keeps, holds after `onMove`. -/
theorem onMove_invariant (P : Outcome → Prop) (s : Session) (p : Pos)
    (hidle : P (.done s))
    (hthrew : P (.threw { s with dragPos := some p }))
    (hstart : P (.done { s with dragPos := some p }))
    (hstep : ∀ t d i, s.dots[i]? = some d → P (.done t) → P (onMoveVisit t d i)) :
    P (onMove s p) := by
  by_cases hact : s.isDragging = true ∧ 0 < s.timeLeft
  · rw [onMove_active p hact.1 hact.2]
    rcases drawDots_cases { s with dragPos := some p } with h | h
    · rw [h, andThen_done]
      exact forEachDot_invariant P s.dots hstep s.dots 0 _ (List.drop_zero _) hstart
    · rw [h, andThen_threw]
      exact hthrew
  · rw [onMove_idle p]
    · exact hidle
    · by_cases hd : s.isDragging = true
      · right
        by_contra hlt
        exact hact ⟨hd, by omega⟩
      · left
        simpa using hd

/-- One `onMove` advances `currentIndex` by at most one and never lowers it. -/
theorem onMove_currentIndex (s : Session) (p : Pos) :
    (onMove s p).state.currentIndex = s.currentIndex ∨
      ((onMove s p).state.currentIndex = s.currentIndex + 1 ∧
        (onMove s p).state.dragPos = none) := by
  refine onMove_invariant
    (fun o => o.state.currentIndex = s.currentIndex ∨
      (o.state.currentIndex = s.currentIndex + 1 ∧ o.state.dragPos = none)) s p
    (Or.inl rfl) (Or.inl rfl) (Or.inl rfl) ?_
  intro t d i _ ht
  simp only [state_done] at ht
  rcases ht with ht | ⟨ht, hnull⟩
  · rcases visit_currentIndex t d i with h | ⟨h, h2⟩
    · exact Or.inl (h.trans ht)
    · exact Or.inr ⟨by omega, h2⟩
  · rw [visit_null d i hnull]
    exact Or.inr ⟨ht, hnull⟩

theorem onMove_dots (s : Session) (p : Pos) : (onMove s p).state.dots = s.dots := by
  refine onMove_invariant (fun o => o.state.dots = s.dots) s p rfl rfl rfl ?_
  intro t d i _ ht
  simp only [state_done] at ht
  rw [visit_dots, ht]

theorem onMove_timeLeft (s : Session) (p : Pos) :
    (onMove s p).state.timeLeft = s.timeLeft := by
  refine onMove_invariant (fun o => o.state.timeLeft = s.timeLeft) s p rfl rfl rfl ?_
  intro t d i _ ht
  simp only [state_done] at ht
  rw [visit_timeLeft, ht]

/-! ## Claims about single handlers -/

/-- C8: `clearConnections` empties `connectedLines` and sets `currentIndex` to 0;
`timeLeft`, the countdown's running status, the dots, `isDragging` and
`dragPos` keep their values (and the handler never raises). -/
theorem clearConnections_resets_lines_only (s : Session) :
    clearConnections s = .done (clearConnections s).state ∧
      (clearConnections s).state.connectedLines = [] ∧
      (clearConnections s).state.currentIndex = 0 ∧
      (clearConnections s).state.timeLeft = s.timeLeft ∧
      (clearConnections s).state.timer = s.timer ∧
      (clearConnections s).state.dots = s.dots ∧
      (clearConnections s).state.isDragging = s.isDragging ∧
      (clearConnections s).state.dragPos = s.dragPos := by
  rw [clearConnections_done]
  simp

/-- With `timeLeft <= 0` a pointer event leaves the time at or below zero and
the committed lines and `currentIndex` as they were, and so does any other
event except that `clear` empties them. -/
theorem step_timeout {s t : Session} (e : Event) (ht : t.timeLeft ≤ 0)
    (hl : t.connectedLines = s.connectedLines ∨ t.connectedLines = []) :
    (step t e).timeLeft ≤ 0 ∧
      ((step t e).connectedLines = s.connectedLines ∨ (step t e).connectedLines = []) := by
  cases e with
  | pointerDown p =>
    simp only [step, onStart_state, if_pos ht]
    exact ⟨ht, hl⟩
  | pointerMove p =>
    simp only [step, onMove_idle p (Or.inr ht), state_done]
    exact ⟨ht, hl⟩
  | pointerUp =>
    simp only [step, onEnd_state]
    exact ⟨ht, hl⟩
  | timerTick =>
    simp only [step]
    split
    · rw [updateTimer_state]
      split
      · exact ⟨by simp only; omega, hl⟩
      · exact ⟨by simp only; omega, hl⟩
    · exact ⟨ht, hl⟩
  | clear =>
    simp only [step, clearConnections_done, state_done]
    exact ⟨ht, Or.inr trivial⟩

theorem run_timeout {s : Session} (evs : List Event) :
    ∀ t : Session, t.timeLeft ≤ 0 →
      (t.connectedLines = s.connectedLines ∨ t.connectedLines = []) →
      (run t evs).timeLeft ≤ 0 ∧
        ((run t evs).connectedLines = s.connectedLines ∨ (run t evs).connectedLines = []) := by
  induction evs with
  | nil =>
    intro t ht hl
    exact ⟨ht, hl⟩
  | cons e rest ih =>
    intro t ht hl
    have h := step_timeout (s := s) e ht hl
    exact ih (step t e) h.1 h.2

/-- C6: with `timeLeft <= 0`, `onStart` and `onMove` return at once and leave
every session variable as it was; hence no pointer-down or pointer-move event
changes the session any more, and whatever events follow, the committed lines
are those of that moment or, after a clear, none. -/
theorem no_input_after_timeout (s : Session) (p : Pos) (h : s.timeLeft ≤ 0) :
    onStart s p = .done s ∧ onMove s p = .done s ∧
      (∀ evs : List Event,
        (∀ e ∈ evs, (∃ q, e = Event.pointerDown q) ∨ (∃ q, e = Event.pointerMove q)) →
          run s evs = s) ∧
      (∀ evs : List Event, (run s evs).timeLeft ≤ 0 ∧
        ((run s evs).connectedLines = s.connectedLines ∨ (run s evs).connectedLines = [])) := by
  refine ⟨?_, onMove_idle p (Or.inr h), ?_, fun evs => run_timeout evs s h (Or.inl rfl)⟩
  · unfold onStart
    rw [if_pos h]
  · intro evs
    induction evs with
    | nil =>
      intro _
      rfl
    | cons e rest ih =>
      intro hall
      have hrest : ∀ e ∈ rest, (∃ q, e = Event.pointerDown q) ∨ (∃ q, e = Event.pointerMove q) :=
        fun e he => hall e (List.mem_cons_of_mem _ he)
      have hstep : step s e = s := by
        rcases hall e (List.mem_cons_self _ _) with ⟨q, hq⟩ | ⟨q, hq⟩
        · rw [hq]
          simp only [step, onStart_state, if_pos h]
        · rw [hq]
          simp only [step, onMove_idle q (Or.inr h), state_done]
      show run (step s e) rest = s
      rw [hstep]
      exact ih hrest

/-- The timeout scenario: a pointer-down and a pointer-move after the countdown
has reached 0 during a drag leave the session as it was. -/
theorem no_input_after_timeout_witness :
    timedOut.timeLeft ≤ 0 ∧
      onMove timedOut ⟨50, 10⟩ = .done timedOut ∧
      run timedOut [.pointerDown ⟨10, 10⟩, .pointerMove ⟨50, 10⟩] = timedOut :=
  ⟨by decide,
    (no_input_after_timeout timedOut ⟨50, 10⟩ (by decide)).2.1,
    (no_input_after_timeout timedOut ⟨50, 10⟩ (by decide)).2.2.1 _ (by simp)⟩

/-- C1: when the loop of `onMove` examines a dot `i` within the 14px radius, it
treats it as the correct next dot (advances `currentIndex` by exactly 1 and
commits only lines flagged correct) exactly when `i` equals `currentIndex` at
that moment, and otherwise keeps `currentIndex` and commits only lines flagged
incorrect; `onStart`, `onMove`, `onEnd` and `updateTimer` never lower
`currentIndex` (one `onMove` raises it by at most 1), and `clearConnections`
resets it to 0. -/
theorem currentIndex_advances_only_on_expected_dot :
    (∀ (s : Session) (dot : Dot) (i : Nat) (pos : Pos),
      s.dragPos = some pos → nearDot pos dot 14 = true →
        ((onMoveVisit s dot i).state.currentIndex = s.currentIndex + 1 ↔ i = s.currentIndex) ∧
        ((onMoveVisit s dot i).state.currentIndex = s.currentIndex ↔ i ≠ s.currentIndex) ∧
        ∃ added, (onMoveVisit s dot i).state.connectedLines = s.connectedLines ++ added ∧
          ∀ l ∈ added, l.correct = decide (i = s.currentIndex)) ∧
    (∀ (s : Session) (p : Pos),
      s.currentIndex ≤ (onStart s p).state.currentIndex ∧
      s.currentIndex ≤ (onMove s p).state.currentIndex ∧
      (onMove s p).state.currentIndex ≤ s.currentIndex + 1 ∧
      s.currentIndex ≤ (onEnd s).state.currentIndex ∧
      s.currentIndex ≤ (updateTimer s).state.currentIndex ∧
      (clearConnections s).state.currentIndex = 0) := by
  constructor
  · intro s dot i pos hpos hnear
    by_cases hi : i = s.currentIndex
    · have hadd : ∀ l ∈ hitLines s dot, l.correct = true := by
        intro l hl
        unfold hitLines at hl
        split at hl
        · rw [List.mem_singleton] at hl
          rw [hl]
        · cases hl
      have hclose : (closingLine s.dots).correct = true := rfl
      rcases visit_correct_state hpos hnear hi with h | ⟨_, h | h⟩
      · rw [h]
        refine ⟨by simp [afterHit, hi], by simp [afterHit, hi], hitLines s dot, rfl, ?_⟩
        simpa [hi] using hadd
      · rw [h]
        refine ⟨by simp [beforeShow, hi], by simp [beforeShow, hi],
          hitLines s dot ++ [closingLine s.dots], by simp [beforeShow], ?_⟩
        intro l hl
        rw [List.mem_append, List.mem_singleton] at hl
        rcases hl with hl | hl
        · simpa [hi] using hadd l hl
        · simp [hi, hl, hclose]
      · rw [h]
        refine ⟨by simp [afterCompletion, beforeShow, hi],
          by simp [afterCompletion, beforeShow, hi],
          hitLines s dot ++ [closingLine s.dots], by simp [afterCompletion, beforeShow], ?_⟩
        intro l hl
        rw [List.mem_append, List.mem_singleton] at hl
        rcases hl with hl | hl
        · simpa [hi] using hadd l hl
        · simp [hi, hl, hclose]
    · rw [visit_wrong_state hpos hnear hi]
      refine ⟨by simp [hi], by simp [hi], missLines s dot, rfl, ?_⟩
      intro l hl
      unfold missLines at hl
      split at hl
      · rw [List.mem_singleton] at hl
        simp [hl, hi]
      · cases hl
  · intro s p
    refine ⟨?_, ?_, ?_, ?_, ?_, ?_⟩
    · rw [onStart_state]
      split <;> exact Nat.le_refl _
    · rcases onMove_currentIndex s p with h | ⟨h, _⟩ <;> omega
    · rcases onMove_currentIndex s p with h | ⟨h, _⟩ <;> omega
    · rw [onEnd_state]
    · rw [updateTimer_state]
      split <;> exact Nat.le_refl _
    · rw [clearConnections_done]
      rfl

/-! ## The invariant of a round -/

theorem correctCount_append (a b : List ConnectionLine) :
    correctCount (a ++ b) = correctCount a + correctCount b := by
  simp [correctCount, List.filter_append]

theorem correctCount_hitLines (s : Session) (d : Dot) :
    correctCount (hitLines s d) = if 0 < s.currentIndex then 1 else 0 := by
  unfold hitLines
  split <;> rfl

theorem correctCount_missLines (s : Session) (d : Dot) : correctCount (missLines s d) = 0 := by
  unfold missLines
  split <;> rfl

theorem correctCount_closingLine (dots : List Dot) : correctCount [closingLine dots] = 1 := rfl

theorem missLines_allDefined {s : Session} (d : Dot) (h : s.currentIndex ≤ s.dots.length) :
    AllDefined (missLines s d) := by
  unfold missLines
  split
  · rw [allDefined_singleton]
    have hlt1 : s.currentIndex - 1 < s.dots.length := by omega
    simp [List.getElem?_eq_getElem hlt1]
  · exact allDefined_nil

theorem lt_length_of_getElem? {dots : List Dot} {i : Nat} {d : Dot} (h : dots[i]? = some d) :
    i < dots.length := by
  by_contra hge
  rw [List.getElem?_eq_none (by omega)] at h
  cases h

/-- A visit of a dot of the level keeps the invariant while time is left. -/
theorem visit_inv {t : Session} {d : Dot} {i : Nat} (hd : t.dots[i]? = some d)
    (hinv : Inv t) (htime : 0 < t.timeLeft) : Inv (onMoveVisit t d i).state := by
  obtain ⟨hci, hall, hcn, hcc, h0, htm, hst⟩ := hinv
  have hlt := lt_length_of_getElem? hd
  rcases visit_state_cases t d i with h | ⟨_, _, _, _, h⟩ | ⟨_, _, _, hi, h | ⟨hn, h | h⟩⟩
  · rw [h]
    exact ⟨hci, hall, hcn, hcc, h0, htm, hst⟩
  · rw [h]
    refine ⟨hci, allDefined_append.2 ⟨hall, missLines_allDefined d hci⟩, ?_, ?_, h0, htm, hst⟩
    · simp only [correctCount_append, correctCount_missLines]
      exact hcn
    · simp only [correctCount_append, correctCount_missLines]
      exact hcc
  · rw [h]
    have hc := hcc (by omega)
    refine ⟨?_, allDefined_append.2 ⟨hall, hitLines_allDefined hi hd⟩, ?_, ?_, h0, htm, hst⟩
    · simp only [afterHit]
      omega
    · simp only [afterHit, correctCount_append, correctCount_hitLines]
      split <;> omega
    · simp only [afterHit, correctCount_append, correctCount_hitLines]
      intro _
      split <;> omega
  · rw [h]
    have hc := hcc (by omega)
    refine ⟨?_, allDefined_append.2 ⟨allDefined_append.2 ⟨hall, hitLines_allDefined hi hd⟩,
      closingLine_allDefined (by omega)⟩, ?_, ?_, h0, ?_, hst⟩
    · simp only [beforeShow]
      omega
    · simp only [beforeShow, correctCount_append, correctCount_hitLines,
        correctCount_closingLine]
      split <;> omega
    · simp only [beforeShow]
      intro hlt2
      omega
    · simp only [beforeShow]
      intro hf
      cases hf
  · rw [h]
    have hc := hcc (by omega)
    have hne : t.status ≠ Status.lose := fun hl => by
      have := hst.1 hl
      omega
    refine ⟨?_, ?_, ?_, ?_, ?_, ?_, ?_⟩
    · simp only [afterCompletion, showFilledShape_currentIndex, showFilledShape_dots, beforeShow]
      omega
    · simp only [afterCompletion, showFilledShape_connectedLines, beforeShow]
      exact allDefined_append.2 ⟨allDefined_append.2 ⟨hall, hitLines_allDefined hi hd⟩,
        closingLine_allDefined (by omega)⟩
    · simp only [afterCompletion, showFilledShape_connectedLines, showFilledShape_dots,
        beforeShow, correctCount_append, correctCount_hitLines, correctCount_closingLine]
      split <;> omega
    · simp only [afterCompletion, showFilledShape_currentIndex, showFilledShape_dots, beforeShow]
      intro hlt2
      omega
    · simp only [afterCompletion, showFilledShape_timeLeft, beforeShow]
      exact h0
    · simp only [afterCompletion, showFilledShape_timer, beforeShow]
      intro hf
      cases hf
    · simp only [afterCompletion, showFilledShape_timeLeft]
      constructor
      · intro hl
        rcases showFilledShape_status (beforeShow t d) with hs | hs | hs
        · rw [hs] at hl
          exact absurd hl hne
        · rw [hs] at hl
          cases hl
        · rw [hs] at hl
          cases hl
      · intro hz
        simp only [beforeShow] at hz
        omega

theorem onMove_inv {s : Session} (p : Pos) (hinv : Inv s) : Inv (onMove s p).state := by
  by_cases htime : 0 < s.timeLeft
  · have hP := onMove_invariant
      (fun o => Inv o.state ∧ o.state.dots = s.dots ∧ 0 < o.state.timeLeft) s p
      ⟨hinv, rfl, htime⟩ ⟨hinv, rfl, htime⟩ ⟨hinv, rfl, htime⟩ (by
        intro t d i hd ht
        simp only [state_done] at ht
        obtain ⟨ht1, ht2, ht3⟩ := ht
        rw [← ht2] at hd
        refine ⟨visit_inv hd ht1 ht3, ?_, ?_⟩
        · rw [visit_dots, ht2]
        · rw [visit_timeLeft]
          exact ht3)
    exact hP.1
  · rw [onMove_idle p (Or.inr (by omega))]
    exact hinv

theorem step_inv {s : Session} (e : Event) (hinv : Inv s) : Inv (step s e) := by
  cases e with
  | pointerDown p =>
    simp only [step, onStart_state]
    split
    · exact hinv
    · exact hinv
  | pointerMove p => exact onMove_inv p hinv
  | pointerUp =>
    simp only [step, onEnd_state]
    exact hinv
  | timerTick =>
    obtain ⟨hci, hall, hcn, hcc, h0, htm, hst⟩ := hinv
    simp only [step]
    split
    · rename_i hrun
      have hpos := htm hrun
      rw [updateTimer_state]
      split
      · refine ⟨hci, hall, hcn, hcc, ?_, ?_, ?_⟩
        · simp only
          omega
        · simp only
          intro hf
          cases hf
        · simp only
          constructor
          · intro _
            omega
          · intro _
            trivial
      · refine ⟨hci, hall, hcn, hcc, ?_, ?_, ?_⟩
        · simp only
          omega
        · simp only
          intro _
          omega
        · simp only
          constructor
          · intro hl
            have := hst.1 hl
            omega
          · intro hz
            omega
    · exact ⟨hci, hall, hcn, hcc, h0, htm, hst⟩
  | clear =>
    obtain ⟨hci, hall, hcn, hcc, h0, htm, hst⟩ := hinv
    simp only [step, clearConnections_done, state_done]
    refine ⟨Nat.zero_le _, allDefined_nil, Nat.zero_le _, fun _ => Nat.le_refl _, h0, htm, hst⟩

theorem run_inv (evs : List Event) : ∀ s : Session, Inv s → Inv (run s evs) := by
  induction evs with
  | nil =>
    intro s hs
    exact hs
  | cons e rest ih =>
    intro s hs
    exact ih (step s e) (step_inv e hs)

theorem setupGame_inv (s : Session) : Inv (setupGame s).state := by
  rw [setupGame_done]
  refine ⟨Nat.zero_le _, allDefined_nil, Nat.zero_le _, fun _ => Nat.le_refl _, ?_, ?_, ?_⟩
  · simp
  · simp
  · simp

theorem step_dots (s : Session) (e : Event) : (step s e).dots = s.dots := by
  cases e with
  | pointerDown p =>
    simp only [step, onStart_state]
    split <;> rfl
  | pointerMove p => exact onMove_dots s p
  | pointerUp => simp only [step, onEnd_state]
  | timerTick =>
    simp only [step]
    split
    · rw [updateTimer_state]
      split <;> rfl
    · rfl
  | clear => simp only [step, clearConnections_done, state_done]

theorem run_dots (evs : List Event) : ∀ s : Session, (run s evs).dots = s.dots := by
  induction evs with
  | nil =>
    intro s
    rfl
  | cons e rest ih =>
    intro s
    exact (ih (step s e)).trans (step_dots s e)

/-- On a session that meets the data model a visit raises only on the null
`dragPos` that a correct hit leaves: no read of `dots` is out of bounds. -/
theorem visit_outcome_wf {t : Session} {d : Dot} {i : Nat} (hci : t.currentIndex ≤ t.dots.length)
    (hall : AllDefined t.connectedLines) (hd : t.dots[i]? = some d) :
    onMoveVisit t d i = .done (onMoveVisit t d i).state ∨
      (t.dragPos = none ∧ onMoveVisit t d i = .threw t) := by
  rcases Option.eq_none_or_eq_some t.dragPos with hp | ⟨p, hp⟩
  · exact Or.inr ⟨hp, visit_null d i hp⟩
  · left
    cases hn : nearDot p d 14 with
    | false =>
      rw [visit_far i hp hn]
      rfl
    | true =>
      by_cases hi : i = t.currentIndex
      · rw [visit_correct hp hn hi hd hall]
        split <;> rfl
      · rw [visit_wrong hp hn hi]
        split
        · have hdraw : drawDots { t with connectedLines := t.connectedLines ++ missLines t d } =
              .done _ :=
            drawDots_done_of (allDefined_append.2 ⟨hall, missLines_allDefined d hci⟩)
              (Or.inr (Or.inr hci))
          rw [hdraw]
          rfl
        · rfl

theorem onMove_threw_of_inv {s : Session} (p : Pos) (hinv : Inv s) :
    ∀ t, onMove s p = .threw t → t.dragPos = none := by
  by_cases hact : s.isDragging = true ∧ 0 < s.timeLeft
  · rw [onMove_active p hact.1 hact.2]
    have hdraw : drawDots { s with dragPos := some p } = .done { s with dragPos := some p } :=
      drawDots_done_of hinv.2.1 (Or.inr (Or.inr hinv.1))
    rw [hdraw, andThen_done]
    have hP := forEachDot_invariant
      (fun o => Inv o.state ∧ o.state.dots = s.dots ∧ 0 < o.state.timeLeft ∧
        ∀ t, o = .threw t → t.dragPos = none) s.dots (by
        intro t d i hd ht
        simp only [state_done] at ht
        obtain ⟨ht1, ht2, ht3, _⟩ := ht
        rw [← ht2] at hd
        refine ⟨visit_inv hd ht1 ht3, ?_, ?_, ?_⟩
        · rw [visit_dots, ht2]
        · rw [visit_timeLeft]
          exact ht3
        · intro u hu
          rcases visit_outcome_wf ht1.1 ht1.2.1 hd with h | ⟨hnull, h⟩
          · rw [h] at hu
            cases hu
          · rw [h] at hu
            cases hu
            exact hnull)
      s.dots 0 { s with dragPos := some p } (List.drop_zero _)
      ⟨hinv, rfl, hact.2, fun t ht => by cases ht⟩
    exact hP.2.2.2
  · rw [onMove_idle p]
    · intro t ht
      cases ht
    · by_cases hd : s.isDragging = true
      · right
        by_contra hlt
        exact hact ⟨hd, by omega⟩
      · left
        simpa using hd

theorem visit_timer (s : Session) (d : Dot) (i : Nat) :
    (onMoveVisit s d i).state.timer = s.timer ∨ (onMoveVisit s d i).state.timer = false := by
  rcases visit_state_cases s d i with h | ⟨_, _, _, _, h⟩ | ⟨_, _, _, _, h | ⟨_, h | h⟩⟩ <;>
    rw [h] <;> simp [afterHit, beforeShow, afterCompletion]

theorem onMove_timer_stopped {s : Session} (p : Pos) (h : s.timer = false) :
    (onMove s p).state.timer = false := by
  refine onMove_invariant (fun o => o.state.timer = false) s p h h h ?_
  intro t d i _ ht
  simp only [state_done] at ht
  rcases visit_timer t d i with h1 | h1
  · rw [h1, ht]
  · exact h1

theorem step_stopped {s : Session} (e : Event) (h : s.timer = false) :
    (step s e).timer = false ∧ (step s e).timeLeft = s.timeLeft := by
  cases e with
  | pointerDown p =>
    simp only [step, onStart_state]
    split
    · exact ⟨h, rfl⟩
    · exact ⟨h, rfl⟩
  | pointerMove p => exact ⟨onMove_timer_stopped p h, onMove_timeLeft s p⟩
  | pointerUp =>
    simp only [step, onEnd_state]
    exact ⟨h, trivial⟩
  | timerTick =>
    simp only [step, h]
    exact ⟨h, rfl⟩
  | clear =>
    simp only [step, clearConnections_done, state_done]
    exact ⟨h, trivial⟩

theorem run_stopped (evs : List Event) :
    ∀ s : Session, s.timer = false →
      (run s evs).timer = false ∧ (run s evs).timeLeft = s.timeLeft := by
  induction evs with
  | nil =>
    intro s h
    exact ⟨h, rfl⟩
  | cons e rest ih =>
    intro s h
    have h1 := step_stopped e h
    have h2 := ih (step s e) h1.1
    exact ⟨h2.1, h2.2.trans h1.2⟩

/-! ## Claims about every state of a round -/

/-- C4: in every state reached from `setupGame` by pointer-down, pointer-move,
pointer-up, timer-tick and clear events, the committed lines flagged correct
(the closing line included) number at most `dots.length`. -/
theorem correct_lines_at_most_dots (s0 : Session) (evs : List Event) :
    correctCount (run (setupGame s0).state evs).connectedLines ≤
        (run (setupGame s0).state evs).dots.length ∧
      (run (setupGame s0).state evs).dots = s0.dots := by
  refine ⟨(run_inv evs _ (setupGame_inv s0)).2.2.1, ?_⟩
  rw [run_dots, setupGame_done]
  rfl

/-- C9: in every state reached from `setupGame` by pointer-down, pointer-move,
pointer-up, timer-tick and clear events, `0 <= currentIndex <= dots.length`;
so the read `dots[currentIndex - 1]` guarded by `currentIndex > 0` is within
bounds, every committed line (the closing line with its reads
`dots[dots.length - 1]` and `dots[0]` included) joins two defined dots, the
renderer does not raise, and the only exception that can leave `onMove` is the
one raised on the `dragPos` that a correct hit has set to null. -/
theorem currentIndex_within_bounds (s0 : Session) (evs : List Event) :
    (run (setupGame s0).state evs).currentIndex ≤ (run (setupGame s0).state evs).dots.length ∧
      (0 < (run (setupGame s0).state evs).currentIndex →
        ∃ d, (run (setupGame s0).state evs).dots[
          (run (setupGame s0).state evs).currentIndex - 1]? = some d) ∧
      (∀ l ∈ (run (setupGame s0).state evs).connectedLines,
        (∃ a, l.fromDot = some a) ∧ ∃ b, l.toDot = some b) ∧
      drawDots (run (setupGame s0).state evs) = .done (run (setupGame s0).state evs) ∧
      (∀ p t, onMove (run (setupGame s0).state evs) p = .threw t → t.dragPos = none) := by
  have hinv := run_inv evs _ (setupGame_inv s0)
  refine ⟨hinv.1, ?_, ?_, drawDots_done_of hinv.2.1 (Or.inr (Or.inr hinv.1)),
    fun p => onMove_threw_of_inv p hinv⟩
  · intro hpos
    have hlt : (run (setupGame s0).state evs).currentIndex - 1 <
        (run (setupGame s0).state evs).dots.length := by
      have := hinv.1
      omega
    exact ⟨_, List.getElem?_eq_getElem hlt⟩
  · intro l hl
    have h := hinv.2.1 l hl
    exact ⟨Option.isSome_iff_exists.1 h.1, Option.isSome_iff_exists.1 h.2⟩

/-- C7: `setupGame` sets `timeLeft` to 30 and starts the countdown; in every
state of the round `timeLeft` is not negative; a tick of the running countdown
lowers `timeLeft` by exactly 1, and it stops the countdown and enters the loss
state exactly when it brings `timeLeft` to 0 (the round was not lost before);
once `timeLeft` is 0 the countdown is stopped and no later event restarts it
or changes `timeLeft`. -/
theorem countdown_reaches_zero_once (s0 : Session) (evs : List Event) :
    (setupGame s0).state.timeLeft = 30 ∧ (setupGame s0).state.timer = true ∧
      0 ≤ (run (setupGame s0).state evs).timeLeft ∧
      ((run (setupGame s0).state evs).timer = true →
        (updateTimer (run (setupGame s0).state evs)).state.timeLeft =
            (run (setupGame s0).state evs).timeLeft - 1 ∧
          (run (setupGame s0).state evs).status ≠ Status.lose ∧
          ((updateTimer (run (setupGame s0).state evs)).state.timer = false ↔
            (updateTimer (run (setupGame s0).state evs)).state.timeLeft = 0) ∧
          ((updateTimer (run (setupGame s0).state evs)).state.status = Status.lose ↔
            (updateTimer (run (setupGame s0).state evs)).state.timeLeft = 0)) ∧
      ((run (setupGame s0).state evs).timeLeft = 0 →
        (run (setupGame s0).state evs).status = Status.lose ∧
          ∀ later : List Event,
            (run (run (setupGame s0).state evs) later).timer = false ∧
              (run (run (setupGame s0).state evs) later).timeLeft = 0 ∧
              step (run (run (setupGame s0).state evs) later) Event.timerTick =
                run (run (setupGame s0).state evs) later) := by
  have hinv := run_inv evs _ (setupGame_inv s0)
  generalize run (setupGame s0).state evs = s at hinv
  obtain ⟨_, _, _, _, h0, htm, hst⟩ := hinv
  refine ⟨by rw [setupGame_done]; rfl, by rw [setupGame_done]; rfl, h0, ?_, ?_⟩
  · intro hrun
    have hpos := htm hrun
    have hne : s.status ≠ Status.lose := fun hl => by
      have := hst.1 hl
      omega
    rw [updateTimer_state]
    split
    · refine ⟨rfl, hne, ?_, ?_⟩
      · simp only [true_iff]
        omega
      · simp only [true_iff]
        omega
    · refine ⟨rfl, hne, ?_, ?_⟩
      · simp only [hrun]
        constructor
        · intro hf
          cases hf
        · intro hz
          omega
      · simp only
        constructor
        · intro hl
          exact absurd hl hne
        · intro hz
          omega
  · intro hz
    have hoff : s.timer = false := by
      cases htimer : s.timer with
      | false => rfl
      | true =>
        have := htm htimer
        omega
    refine ⟨hst.2 hz, fun later => ?_⟩
    have h := run_stopped later s hoff
    refine ⟨h.1, h.2.trans hz, ?_⟩
    simp only [step, h.1]
    rfl

/-! ## A pointer position within the radius of a single dot -/

theorem visit_dragPos (s : Session) (d : Dot) (i : Nat) :
    (onMoveVisit s d i).state.dragPos = s.dragPos ∨ (onMoveVisit s d i).state.dragPos = none := by
  rcases visit_state_cases s d i with h | ⟨_, _, _, _, h⟩ | ⟨_, _, _, _, h | ⟨_, h | h⟩⟩ <;>
    rw [h] <;> simp [afterHit, beforeShow, afterCompletion]

/-- Dots out of reach leave the session variables alone, whether they are
skipped or the loop has already stopped on a null `dragPos`. -/
theorem forEachDot_far {p : Pos} (ds : List Dot) (hfar : ∀ d ∈ ds, nearDot p d 14 = false) :
    ∀ (i : Nat) (s : Session), (s.dragPos = some p ∨ s.dragPos = none) →
      (forEachDot ds i s).state = s := by
  induction ds with
  | nil =>
    intro i s _
    rfl
  | cons d rest ih =>
    intro i s hs
    rw [forEachDot_cons]
    rcases hs with hs | hs
    · rw [visit_far i hs (hfar d (List.mem_cons_self _ _)), andThen_done]
      exact ih (fun d hd => hfar d (List.mem_cons_of_mem _ hd)) (i + 1) s (Or.inl hs)
    · rw [visit_null d i hs, andThen_threw]
      rfl

/-- When only the dot at index `k` is within reach, the loop does what its
visit of that dot does. -/
theorem forEachDot_single {p : Pos} {d : Dot} {k : Nat} (ds : List Dot) :
    ∀ (i : Nat) (s : Session), s.dragPos = some p → i ≤ k → ds[k - i]? = some d →
      (∀ j e, ds[j]? = some e → i + j ≠ k → nearDot p e 14 = false) →
      (forEachDot ds i s).state = (onMoveVisit s d k).state := by
  induction ds with
  | nil =>
    intro i s _ _ hk _
    simp at hk
  | cons d0 rest ih =>
    intro i s hs hik hk honly
    rw [forEachDot_cons]
    by_cases heq : i = k
    · subst heq
      simp only [Nat.sub_self, List.getElem?_cons_zero, Option.some.injEq] at hk
      subst hk
      have hrest : ∀ e ∈ rest, nearDot p e 14 = false := by
        intro e he
        obtain ⟨j, hj⟩ := List.mem_iff_getElem?.1 he
        exact honly (j + 1) e (by simpa using hj) (by omega)
      cases hv : onMoveVisit s d0 i with
      | done t =>
        rw [andThen_done]
        have hdp := visit_dragPos s d0 i
        rw [hv, state_done, hs] at hdp
        exact forEachDot_far rest hrest (i + 1) t hdp
      | threw t => rfl
    · have hfar : nearDot p d0 14 = false := honly 0 d0 (by simp) (by omega)
      rw [visit_far i hs hfar, andThen_done]
      have hsub : k - i = (k - (i + 1)) + 1 := by omega
      rw [hsub, List.getElem?_cons_succ] at hk
      refine ih (i + 1) s hs (by omega) hk ?_
      intro j e hj hne
      exact honly (j + 1) e (by simpa using hj) (by omega)

/-- The handler on an active session that meets the data model, when only the
dot at index `k` is within reach of the pointer. -/
theorem onMove_single {s : Session} {p : Pos} {d : Dot} {k : Nat}
    (hdrag : s.isDragging = true) (htime : 0 < s.timeLeft) (hwf : s.wf)
    (hk : s.dots[k]? = some d)
    (honly : ∀ j e, s.dots[j]? = some e → j ≠ k → nearDot p e 14 = false) :
    (onMove s p).state = (onMoveVisit { s with dragPos := some p } d k).state := by
  rw [onMove_active p hdrag htime]
  have hdraw : drawDots { s with dragPos := some p } = .done { s with dragPos := some p } :=
    drawDots_done_of hwf.2 (Or.inr (Or.inr hwf.1))
  rw [hdraw, andThen_done]
  refine forEachDot_single s.dots 0 { s with dragPos := some p } rfl (Nat.zero_le _) hk ?_
  intro j e hj hne
  exact honly j e hj (by omega)

/-- C3, as stated, fails: with `currentIndex = 0`, dragging, time left, and
the pointer within the radius of dot index 2 only, `onMove` appends no line
at all. -/
theorem wrong_dot_before_first_counterexample :
    freshDrag.isDragging = true ∧ 0 < freshDrag.timeLeft ∧ freshDrag.currentIndex = 0 ∧
      freshDrag.dots = [⟨10, 10⟩, ⟨50, 10⟩, ⟨30, 50⟩] ∧
      nearDot ⟨30, 50⟩ ⟨30, 50⟩ 14 = true ∧
      nearDot ⟨30, 50⟩ ⟨10, 10⟩ 14 = false ∧ nearDot ⟨30, 50⟩ ⟨50, 10⟩ 14 = false ∧
      (onMove freshDrag ⟨30, 50⟩).state.currentIndex = 0 ∧
      (onMove freshDrag ⟨30, 50⟩).state.connectedLines = freshDrag.connectedLines ∧
      ¬ ∃ l : ConnectionLine, l.correct = false ∧
        (onMove freshDrag ⟨30, 50⟩).state.connectedLines = freshDrag.connectedLines ++ [l] := by
  refine ⟨by decide, by decide, by decide, by decide, by decide, by decide, by decide,
    by decide, by decide, ?_⟩
  rintro ⟨l, _, hl⟩
  have h : (onMove freshDrag ⟨30, 50⟩).state.connectedLines = [] := by decide
  have h2 : freshDrag.connectedLines = [] := by decide
  rw [h, h2] at hl
  cases hl

/-- C3, amended: on a dragging session with `timeLeft > 0` that meets the data
model, when the pointer is within the hit radius of the single dot `d` at
index `k` and `k` is not `currentIndex`, `onMove` keeps `currentIndex`; when
`currentIndex > 0` it appends exactly one line, flagged incorrect, from
`dots[currentIndex - 1]` to `d`, and when `currentIndex = 0` it appends none. -/
theorem wrong_dot_appends_one_incorrect_line (s : Session) (p : Pos) (d : Dot) (k : Nat)
    (hdrag : s.isDragging = true) (htime : 0 < s.timeLeft) (hwf : s.wf)
    (hk : s.dots[k]? = some d) (hnear : nearDot p d 14 = true)
    (honly : ∀ j e, s.dots[j]? = some e → j ≠ k → nearDot p e 14 = false)
    (hne : k ≠ s.currentIndex) :
    (onMove s p).state.currentIndex = s.currentIndex ∧
      (0 < s.currentIndex →
        (onMove s p).state.connectedLines = s.connectedLines ++
          [{ fromDot := s.dots[s.currentIndex - 1]?, toDot := some d, correct := false }] ∧
        ∃ a, s.dots[s.currentIndex - 1]? = some a) ∧
      (s.currentIndex = 0 → (onMove s p).state.connectedLines = s.connectedLines) := by
  rw [onMove_single hdrag htime hwf hk honly,
    visit_wrong_state (s := { s with dragPos := some p }) rfl hnear hne]
  refine ⟨rfl, ?_, ?_⟩
  · intro hpos
    refine ⟨by simp [missLines, hpos], ?_⟩
    have hlt : s.currentIndex - 1 < s.dots.length := by
      have := hwf.1
      omega
    exact ⟨_, List.getElem?_eq_getElem hlt⟩
  · intro hz
    simp [missLines, hz]

/-- With dot 0 connected on the three-dot level, reaching dot 2 appends the
incorrect line `(10,10) -> (30,50)` and `currentIndex` stays 1. -/
theorem wrong_dot_appends_one_incorrect_line_witness :
    oneConnected.currentIndex = 1 ∧
      (onMove oneConnected ⟨30, 50⟩).state.currentIndex = 1 ∧
      (onMove oneConnected ⟨30, 50⟩).state.connectedLines =
        [{ fromDot := some ⟨10, 10⟩, toDot := some ⟨30, 50⟩, correct := false }] := by
  have h := wrong_dot_appends_one_incorrect_line oneConnected ⟨30, 50⟩ ⟨30, 50⟩ 2
    (by decide) (by decide) ⟨by decide, by decide⟩ (by decide) (by decide)
    (by
      intro j e hj hne
      rcases j with _ | _ | _ | j
      · have he : e = ⟨10, 10⟩ := by
          have : oneConnected.dots[0]? = some ⟨10, 10⟩ := by decide
          rw [this] at hj
          exact (Option.some.inj hj).symm
        rw [he]
        decide
      · have he : e = ⟨50, 10⟩ := by
          have : oneConnected.dots[1]? = some ⟨50, 10⟩ := by decide
          rw [this] at hj
          exact (Option.some.inj hj).symm
        rw [he]
        decide
      · exact absurd rfl hne
      · have hlen : oneConnected.dots.length = 3 := by decide
        have := lt_length_of_getElem? hj
        omega)
    (by decide)
  exact ⟨by decide, h.1, h.2.1 (by decide) |>.1⟩

/-! ## Completion of the level -/

theorem missLines_incorrect (s : Session) (d : Dot) : ∀ l ∈ missLines s d, l.correct = false := by
  intro l hl
  unfold missLines at hl
  split at hl
  · rw [List.mem_singleton] at hl
    rw [hl]
  · cases hl

theorem progress_visit {s : Session} {p : Pos} {t : Session} {d : Dot} {i : Nat}
    (hd : s.dots[i]? = some d) (ht : Progress s p (.done t)) :
    Progress s p (onMoveVisit t d i) := by
  rcases ht with ⟨_, hA⟩ | ⟨h1, h2, h3⟩ | ⟨wrong, e, hw, he, hn, hst⟩
  · obtain ⟨hall, wrong, hw, rfl⟩ := hA t rfl
    cases hnear : nearDot p d 14 with
    | false =>
      rw [visit_far i rfl hnear]
      exact Or.inl ⟨rfl, fun u hu => by
        cases hu
        exact ⟨hall, wrong, hw, rfl⟩⟩
    | true =>
      by_cases hi : i = s.currentIndex
      · rw [visit_correct (s := { s with dragPos := some p, connectedLines := s.connectedLines ++ wrong }) rfl hnear hi hd hall]
        split
        · rename_i hn
          refine Or.inr (Or.inr ⟨wrong, d, hw, ?_, hn, rfl⟩)
          rw [← hi]
          exact hd
        · rename_i hn
          exact Or.inr (Or.inl ⟨rfl, hn, rfl⟩)
      · rw [visit_wrong (s := { s with dragPos := some p, connectedLines := s.connectedLines ++ wrong }) rfl hnear hi]
        split
        · refine Or.inl ⟨by rw [drawDots_state], fun u hu => ?_⟩
          obtain ⟨hu1, hu2⟩ := drawDots_done_allDefined hu
          refine ⟨by rw [hu1]; exact hu2, wrong ++ missLines s d, ?_, ?_⟩
          · intro l hl
            rw [List.mem_append] at hl
            rcases hl with hl | hl
            · exact hw l hl
            · exact missLines_incorrect s d l hl
          · rw [hu1]
            simp only [List.append_assoc]
            rfl
        · exact Or.inl ⟨rfl, fun u hu => by
            cases hu
            exact ⟨hall, wrong, hw, rfl⟩⟩
  · simp only [state_done] at h1 h2 h3
    rw [visit_null d i h3]
    exact Or.inr (Or.inl ⟨h1, h2, h3⟩)
  · simp only [state_done] at hst
    have hnull : t.dragPos = none := by
      rw [hst]
      simp [afterCompletion, beforeShow]
    rw [visit_null d i hnull]
    exact Or.inr (Or.inr ⟨wrong, e, hw, he, hn, hst⟩)

theorem onMove_progress {s : Session} (p : Pos) (hdrag : s.isDragging = true)
    (htime : 0 < s.timeLeft) : Progress s p (onMove s p) := by
  rw [onMove_active p hdrag htime]
  rcases drawDots_cases { s with dragPos := some p } with h | h
  · rw [h, andThen_done]
    have hall := (drawDots_done_allDefined h).2
    refine forEachDot_invariant (Progress s p) s.dots
      (fun t d i hd ht => progress_visit hd ht) s.dots 0 _ (List.drop_zero _) ?_
    refine Or.inl ⟨rfl, fun u hu => ?_⟩
    cases hu
    refine ⟨hall, [], fun l hl => absurd hl (List.not_mem_nil l), ?_⟩
    simp
  · rw [h, andThen_threw]
    exact Or.inl ⟨rfl, fun u hu => by cases hu⟩

/-- C2: whenever a call of `onMove` brings `currentIndex` to `dots.length`, the
level has at least one dot, the call hit the last dot `d`, and what it appended
to `connectedLines` is: lines flagged incorrect (wrong hits met earlier in the
loop), then the ordinary correct line to `d` when `d` is not the first dot,
then exactly one closing line from the last dot to the first, flagged correct,
which ends the list; the countdown is stopped and `isDragging` is false. -/
theorem completion_appends_closing_line (s : Session) (p : Pos)
    (hbefore : s.currentIndex ≠ s.dots.length)
    (hafter : (onMove s p).state.currentIndex = s.dots.length) :
    1 ≤ s.dots.length ∧
      (∃ a b, s.dots[s.dots.length - 1]? = some a ∧ s.dots[0]? = some b) ∧
      (∃ wrong d, (∀ l ∈ wrong, l.correct = false) ∧
        s.currentIndex + 1 = s.dots.length ∧ s.dots[s.currentIndex]? = some d ∧
        (onMove s p).state.connectedLines =
          s.connectedLines ++ wrong ++
            (if 0 < s.currentIndex then
              [{ fromDot := s.dots[s.currentIndex - 1]?, toDot := some d, correct := true }]
            else []) ++
            [{ fromDot := s.dots[s.dots.length - 1]?, toDot := s.dots[0]?, correct := true }]) ∧
      (onMove s p).state.connectedLines.getLast? =
        some { fromDot := s.dots[s.dots.length - 1]?, toDot := s.dots[0]?, correct := true } ∧
      (onMove s p).state.timer = false ∧
      (onMove s p).state.isDragging = false ∧
      (onMove s p).state.dots = s.dots := by
  by_cases hact : s.isDragging = true ∧ 0 < s.timeLeft
  · rcases onMove_progress p hact.1 hact.2 with ⟨h, _⟩ | ⟨_, h, _⟩ | ⟨wrong, d, hw, hd, hn, hst⟩
    · rw [h] at hafter
      exact absurd hafter hbefore
    · exact absurd hafter h
    · have hlen : 1 ≤ s.dots.length := by omega
      have hlast : s.dots.length - 1 < s.dots.length := by omega
      have hlines : (onMove s p).state.connectedLines =
          s.connectedLines ++ wrong ++
            (if 0 < s.currentIndex then
              [{ fromDot := s.dots[s.currentIndex - 1]?, toDot := some d, correct := true }]
            else []) ++
            [{ fromDot := s.dots[s.dots.length - 1]?, toDot := s.dots[0]?, correct := true }] := by
        rw [hst]
        simp only [afterCompletion, showFilledShape_connectedLines, beforeShow, hitLines,
          closingLine]
      refine ⟨hlen, ⟨_, _, List.getElem?_eq_getElem hlast, List.getElem?_eq_getElem hlen⟩,
        ⟨wrong, d, hw, hn, hd, hlines⟩, ?_, ?_, ?_, onMove_dots s p⟩
      · rw [hlines, List.getLast?_append]
        rfl
      · rw [hst]
        simp [afterCompletion, beforeShow]
      · rw [hst]
        simp [afterCompletion, beforeShow]
  · rw [onMove_idle p] at hafter
    · exact absurd hafter hbefore
    · by_cases hd : s.isDragging = true
      · right
        by_contra hlt
        exact hact ⟨hd, by omega⟩
      · left
        simpa using hd

/-- The one-dot level: reaching its dot completes the level and the closing line
from the dot to itself is the last line. -/
theorem completion_appends_closing_line_witness :
    singleDrag.currentIndex = 0 ∧ singleDrag.dots.length = 1 ∧
      (onMove singleDrag ⟨20, 20⟩).state.currentIndex = 1 ∧
      (onMove singleDrag ⟨20, 20⟩).state.connectedLines.getLast? =
        some { fromDot := some ⟨20, 20⟩, toDot := some ⟨20, 20⟩, correct := true } ∧
      (onMove singleDrag ⟨20, 20⟩).state.timer = false ∧
      (onMove singleDrag ⟨20, 20⟩).state.isDragging = false :=
  ⟨by decide, by decide, by decide,
    (completion_appends_closing_line singleDrag ⟨20, 20⟩ (by decide) (by decide)).2.2.2.1,
    (completion_appends_closing_line singleDrag ⟨20, 20⟩ (by decide) (by decide)).2.2.2.2.1,
    (completion_appends_closing_line singleDrag ⟨20, 20⟩ (by decide) (by decide)).2.2.2.2.2.1⟩

/-! ## Connecting the dots in order -/

theorem orderedLines_succ (dots : List Dot) {k : Nat} (hk : 0 < k) :
    orderedLines dots (k + 1) =
      orderedLines dots k ++ [{ fromDot := dots[k - 1]?, toDot := dots[k]?, correct := true }] := by
  unfold orderedLines
  obtain ⟨m, rfl⟩ : ∃ m, k = m + 1 := ⟨k - 1, by omega⟩
  simp [List.range_succ]

theorem orderedLines_allDefined (dots : List Dot) {k : Nat} (hk : k ≤ dots.length) :
    AllDefined (orderedLines dots k) := by
  intro l hl
  unfold orderedLines at hl
  rw [List.mem_map] at hl
  obtain ⟨i, hi, rfl⟩ := hl
  rw [List.mem_range] at hi
  have h1 : i < dots.length := by omega
  have h2 : i + 1 < dots.length := by omega
  simp [List.getElem?_eq_getElem h1, List.getElem?_eq_getElem h2]

/-- A move whose pointer reaches the expected dot `k` and no other dot. -/
theorem onMove_hit {m : Session} {k : Nat} {p : Pos} {d : Dot}
    (hdrag : m.isDragging = true) (htime : 0 < m.timeLeft) (hwf : m.wf)
    (hci : k = m.currentIndex) (hk : m.dots[k]? = some d) (hnear : nearDot p d 14 = true)
    (honly : ∀ j e, m.dots[j]? = some e → j ≠ k → nearDot p e 14 = false) :
    (onMove m p).state =
      if m.currentIndex + 1 = m.dots.length then afterCompletion { m with dragPos := some p } d
      else afterHit { m with dragPos := some p } d := by
  have hv : onMoveVisit { m with dragPos := some p } d k = _ :=
    visit_correct rfl hnear hci hk hwf.2
  rw [onMove_single hdrag htime hwf hk honly, hv]
  simp only
  split <;> rfl

/-- One move of an in-order drag: the pointer reaches dot `k`, the next one
expected, and no other dot. -/
theorem midDrag_hit {s0 : Session} {k : Nat} {p : Pos} {d : Dot} (dp : Option Pos)
    (hk : s0.dots[k]? = some d) (hnear : nearDot p d 14 = true)
    (honly : ∀ j e, s0.dots[j]? = some e → j ≠ k → nearDot p e 14 = false) :
    (onMove (midDrag s0 k dp) p).state =
      if k + 1 = s0.dots.length then completed s0 else midDrag s0 (k + 1) none := by
  have hlt := lt_length_of_getElem? hk
  have hall : AllDefined (orderedLines s0.dots k) := orderedLines_allDefined s0.dots (by omega)
  have hwf : (midDrag s0 k dp).wf := ⟨by simp only [midDrag]; omega, hall⟩
  have hhit : (onMove (midDrag s0 k dp) p).state = _ :=
    onMove_hit (m := midDrag s0 k dp) rfl (by simp [midDrag]) hwf rfl hk hnear honly
  rw [hhit]
  have hlines : ∀ x : Session, x.currentIndex = k → x.dots = s0.dots →
      orderedLines s0.dots k ++ hitLines x d = orderedLines s0.dots (k + 1) := by
    intro x hx1 hx2
    by_cases hpos : 0 < k
    · rw [orderedLines_succ s0.dots hpos, hk]
      simp [hitLines, hx1, hx2, hpos]
    · have hz : k = 0 := by omega
      subst hz
      simp [hitLines, hx1, orderedLines]
  by_cases hn : k + 1 = s0.dots.length
  · have hn2 : (midDrag s0 k dp).currentIndex + 1 = (midDrag s0 k dp).dots.length := hn
    rw [if_pos hn2, if_pos hn]
    show showFilledShape _ = showFilledShape _
    congr 1
    refine Session.ext rfl rfl hn rfl rfl rfl ?_ rfl rfl
    refine (congrArg (fun l => l ++ [closingLine s0.dots])
      (hlines { midDrag s0 k dp with dragPos := some p } rfl rfl)).trans ?_
    show orderedLines s0.dots (k + 1) ++ [closingLine s0.dots] = _
    rw [hn]
  · have hn2 : ¬ (midDrag s0 k dp).currentIndex + 1 = (midDrag s0 k dp).dots.length := hn
    rw [if_neg hn2, if_neg hn]
    exact Session.ext rfl rfl rfl rfl rfl rfl
      (hlines { midDrag s0 k dp with dragPos := some p } rfl rfl) rfl rfl

theorem run_cons (s : Session) (e : Event) (evs : List Event) :
    run s (e :: evs) = run (step s e) evs := rfl

theorem mem_dotsInReach {dots : List Dot} {p : Pos} {j : Nat} :
    j ∈ dotsInReach dots p ↔ ∃ d, dots[j]? = some d ∧ nearDot p d 14 = true := by
  unfold dotsInReach
  rw [List.mem_filter, List.mem_range]
  constructor
  · rintro ⟨hlt, h⟩
    rw [List.getElem?_eq_getElem hlt] at h
    exact ⟨_, List.getElem?_eq_getElem hlt, h⟩
  · rintro ⟨d, hd, hnear⟩
    refine ⟨lt_length_of_getElem? hd, ?_⟩
    rw [hd]
    exact hnear

/-- A move of an in-order drag that reaches no dot only records the position. -/
theorem midDrag_free {s0 : Session} {k : Nat} {p : Pos} (dp : Option Pos)
    (hk : k ≤ s0.dots.length) (hfree : dotsInReach s0.dots p = []) :
    (onMove (midDrag s0 k dp) p).state = midDrag s0 k (some p) := by
  have hall : AllDefined (orderedLines s0.dots k) := orderedLines_allDefined s0.dots hk
  have hfar : ∀ d ∈ s0.dots, nearDot p d 14 = false := by
    intro d hd
    obtain ⟨j, hj⟩ := List.mem_iff_getElem?.1 hd
    cases hv : nearDot p d 14 with
    | false => rfl
    | true =>
      have hmem : j ∈ dotsInReach s0.dots p := mem_dotsInReach.2 ⟨d, hj, hv⟩
      rw [hfree] at hmem
      cases hmem
  have hact : onMove (midDrag s0 k dp) p = _ :=
    onMove_active (s := midDrag s0 k dp) p rfl (by simp [midDrag])
  have hdraw : drawDots { midDrag s0 k dp with dragPos := some p } = .done _ :=
    drawDots_done_of hall (Or.inr (Or.inr hk))
  rw [hact]
  show ((drawDots { midDrag s0 k dp with dragPos := some p }).andThen _).state = _
  rw [hdraw, andThen_done]
  exact forEachDot_far s0.dots hfar 0 _ (Or.inl rfl)

/-- Once the level is complete the drag is over: moves change nothing. -/
theorem run_moves_completed (s0 : Session) (ps : List Pos) :
    run (completed s0) (ps.map Event.pointerMove) = completed s0 := by
  induction ps with
  | nil => rfl
  | cons p rest ih =>
    rw [List.map_cons, run_cons]
    show run (onMove (completed s0) p).state _ = _
    rw [onMove_idle p (Or.inl (by simp [completed])), state_done]
    exact ih

/-- The moves of an in-order drag, from dot `k` on. -/
theorem run_moves_in_order (s0 : Session) (ps : List Pos) :
    ∀ (k : Nat) (dp : Option Pos), k < s0.dots.length →
      (∀ p ∈ ps, (dotsInReach s0.dots p).length ≤ 1) →
      (ps.map (dotsInReach s0.dots)).flatten = List.range' k (s0.dots.length - k) →
      run (midDrag s0 k dp) (ps.map Event.pointerMove) = completed s0 := by
  induction ps with
  | nil =>
    intro k dp hk _ horder
    obtain ⟨m, hm⟩ : ∃ m, s0.dots.length - k = m + 1 := ⟨s0.dots.length - k - 1, by omega⟩
    rw [hm, List.range'_succ] at horder
    cases horder
  | cons p rest ih =>
    intro k dp hk hone horder
    have hone1 := hone p (List.mem_cons_self _ _)
    have hrest : ∀ q ∈ rest, (dotsInReach s0.dots q).length ≤ 1 :=
      fun q hq => hone q (List.mem_cons_of_mem _ hq)
    obtain ⟨m, hm⟩ : ∃ m, s0.dots.length - k = m + 1 := ⟨s0.dots.length - k - 1, by omega⟩
    rw [List.map_cons, List.flatten_cons, hm, List.range'_succ] at horder
    rw [List.map_cons, run_cons]
    show run (onMove (midDrag s0 k dp) p).state _ = _
    cases hreach : dotsInReach s0.dots p with
    | nil =>
      rw [hreach, List.nil_append] at horder
      rw [midDrag_free dp (by omega) hreach]
      refine ih k (some p) hk hrest ?_
      rw [horder, hm, List.range'_succ]
    | cons j more =>
      cases more with
      | cons j2 more2 =>
        rw [hreach] at hone1
        simp only [List.length_cons] at hone1
        omega
      | nil =>
        rw [hreach, List.singleton_append, List.cons.injEq] at horder
        obtain ⟨hj, horder⟩ := horder
        subst hj
        have hmem : j ∈ dotsInReach s0.dots p := by
          rw [hreach]
          exact List.mem_singleton_self j
        obtain ⟨d, hd, hnear⟩ := mem_dotsInReach.1 hmem
        have honly : ∀ i e, s0.dots[i]? = some e → i ≠ j → nearDot p e 14 = false := by
          intro i e hi hne
          cases hv : nearDot p e 14 with
          | false => rfl
          | true =>
            have hmem2 : i ∈ dotsInReach s0.dots p := mem_dotsInReach.2 ⟨e, hi, hv⟩
            rw [hreach, List.mem_singleton] at hmem2
            exact absurd hmem2 hne
        rw [midDrag_hit dp hd hnear honly]
        by_cases hlast : j + 1 = s0.dots.length
        · rw [if_pos hlast]
          exact run_moves_completed s0 rest
        · rw [if_neg hlast]
          refine ih (j + 1) none (by omega) hrest ?_
          rw [horder]
          congr 1
          omega

/-- C5, as stated, fails: on the three-dot level, from a freshly set up round,
the path `(10,10)`, `(11,10)`, `(50,10)`, `(30,50)` has every position within
the hit radius of at most one dot and moves onto the dots 0, 1, 2 in order,
but its second position is still on dot 0 when dot 1 is expected, so `onMove`
commits an incorrect line `(10,10) -> (10,10)`: `connectedLines` has four
lines, not the two correct lines followed by the closing line. -/
theorem lingering_drag_counterexample :
    1 ≤ (loaded "easy" easyDots).dots.length ∧
      (∀ p ∈ lingerPath, (dotsInReach (loaded "easy" easyDots).dots p).length ≤ 1) ∧
      lingerPath.map (dotsInReach (loaded "easy" easyDots).dots) = [[0], [0], [1], [2]] ∧
      (run (setupGame (loaded "easy" easyDots)).state
        (Event.pointerDown ⟨10, 10⟩ :: lingerPath.map Event.pointerMove)).connectedLines =
        [{ fromDot := some ⟨10, 10⟩, toDot := some ⟨10, 10⟩, correct := false },
          { fromDot := some ⟨10, 10⟩, toDot := some ⟨50, 10⟩, correct := true },
          { fromDot := some ⟨50, 10⟩, toDot := some ⟨30, 50⟩, correct := true },
          { fromDot := some ⟨30, 50⟩, toDot := some ⟨10, 10⟩, correct := true }] ∧
      (run (setupGame (loaded "easy" easyDots)).state
        (Event.pointerDown ⟨10, 10⟩ :: lingerPath.map Event.pointerMove)).connectedLines ≠
        [{ fromDot := some ⟨10, 10⟩, toDot := some ⟨50, 10⟩, correct := true },
          { fromDot := some ⟨50, 10⟩, toDot := some ⟨30, 50⟩, correct := true },
          { fromDot := some ⟨30, 50⟩, toDot := some ⟨10, 10⟩, correct := true }] := by
  refine ⟨by decide, by decide, by decide, by decide, by decide⟩

/-- C5, amended: on a level of `n >= 1` dots, from a freshly set up round,
pressing the pointer down and then moving it along a path whose positions are
each within the hit radius of at most one dot and on which the dots reached
are 0, 1, ..., n-1, each by exactly one position and in this order, leaves
`connectedLines` equal to the `n-1` correct lines `dots[i] -> dots[i+1]` in
order followed by one correct closing line `dots[n-1] -> dots[0]`, with
`currentIndex = n`, the drag ended and the countdown stopped. -/
theorem in_order_drag_completes (s0 : Session) (q : Pos) (ps : List Pos)
    (hn : 1 ≤ s0.dots.length)
    (hone : ∀ p ∈ ps, (dotsInReach s0.dots p).length ≤ 1)
    (horder : (ps.map (dotsInReach s0.dots)).flatten = List.range s0.dots.length) :
    (run (setupGame s0).state (Event.pointerDown q :: ps.map Event.pointerMove)).connectedLines =
        ((List.range (s0.dots.length - 1)).map fun i =>
          ({ fromDot := s0.dots[i]?, toDot := s0.dots[i + 1]?, correct := true } :
            ConnectionLine)) ++
          [{ fromDot := s0.dots[s0.dots.length - 1]?, toDot := s0.dots[0]?, correct := true }] ∧
      (run (setupGame s0).state
        (Event.pointerDown q :: ps.map Event.pointerMove)).currentIndex = s0.dots.length ∧
      (run (setupGame s0).state
        (Event.pointerDown q :: ps.map Event.pointerMove)).isDragging = false ∧
      (run (setupGame s0).state
        (Event.pointerDown q :: ps.map Event.pointerMove)).timer = false ∧
      (run (setupGame s0).state
        (Event.pointerDown q :: ps.map Event.pointerMove)).dots = s0.dots := by
  have hstart : step (setupGame s0).state (Event.pointerDown q) = midDrag s0 0 (some q) := by
    simp only [step, onStart_state, setupGame_done, state_done]
    rw [if_neg (by omega)]
    rfl
  rw [run_cons, hstart, run_moves_in_order s0 ps 0 (some q) (by omega) hone
    (by rw [horder, List.range_eq_range', Nat.sub_zero])]
  simp [completed, orderedLines, closingLine]

/-- The three-dot level `(10,10)`, `(50,10)`, `(30,50)`: a drag over the dots in
order, with two positions in between that reach no dot, yields two correct
lines followed by the closing line `(30,50) -> (10,10)`. -/
theorem in_order_drag_completes_witness :
    (run (setupGame (loaded "easy" easyDots)).state
      [.pointerDown ⟨12, 9⟩, .pointerMove ⟨10, 10⟩, .pointerMove ⟨30, 10⟩,
        .pointerMove ⟨50, 10⟩, .pointerMove ⟨40, 30⟩, .pointerMove ⟨30, 50⟩]).connectedLines =
      [{ fromDot := some ⟨10, 10⟩, toDot := some ⟨50, 10⟩, correct := true },
        { fromDot := some ⟨50, 10⟩, toDot := some ⟨30, 50⟩, correct := true },
        { fromDot := some ⟨30, 50⟩, toDot := some ⟨10, 10⟩, correct := true }] :=
  (in_order_drag_completes (loaded "easy" easyDots) ⟨12, 9⟩
    [⟨10, 10⟩, ⟨30, 10⟩, ⟨50, 10⟩, ⟨40, 30⟩, ⟨30, 50⟩]
    (by decide) (by decide) (by decide)).1

/-! ## Several dots within the radius -/

theorem wrongLines_nil (s : Session) (p : Pos) : wrongLines s p [] = [] := by
  unfold wrongLines
  split <;> rfl

theorem wrongLines_cons_far {s : Session} {p : Pos} {d : Dot} (ds : List Dot)
    (h : nearDot p d 14 = false) : wrongLines s p (d :: ds) = wrongLines s p ds := by
  unfold wrongLines
  simp [List.filter_cons, h]

theorem wrongLines_cons_near {s : Session} {p : Pos} {d : Dot} (ds : List Dot)
    (h : nearDot p d 14 = true) :
    wrongLines s p (d :: ds) = missLines s d ++ wrongLines s p ds := by
  unfold wrongLines missLines
  split
  · simp [List.filter_cons, h]
  · rfl

/-- A loop in which the expected dot is out of reach examines every dot within
reach, in array order, and runs to its end. -/
theorem forEachDot_no_hit {p : Pos} {s : Session} (ds : List Dot) :
    ∀ (i : Nat) (lines : List ConnectionLine),
      s.dragPos = some p → s.currentIndex ≤ s.dots.length → AllDefined lines →
      (∀ j e, ds[j]? = some e → nearDot p e 14 = true → i + j ≠ s.currentIndex) →
      forEachDot ds i { s with connectedLines := lines } =
        .done { s with connectedLines := lines ++ wrongLines s p ds } := by
  induction ds with
  | nil =>
    intro i lines _ _ _ _
    rw [forEachDot_nil, wrongLines_nil, List.append_nil]
  | cons d rest ih =>
    intro i lines hp hci hall hno
    have hrest : ∀ j e, rest[j]? = some e → nearDot p e 14 = true →
        i + 1 + j ≠ s.currentIndex := by
      intro j e hj hn
      have := hno (j + 1) e (by simpa using hj) hn
      omega
    rw [forEachDot_cons]
    cases hn : nearDot p d 14 with
    | false =>
      rw [visit_far (s := { s with connectedLines := lines }) i hp hn, andThen_done,
        wrongLines_cons_far rest hn]
      exact ih (i + 1) lines hp hci hall hrest
    | true =>
      have hi : i ≠ s.currentIndex := by
        have := hno 0 d (by simp) hn
        omega
      have hmiss : AllDefined (lines ++ missLines s d) :=
        allDefined_append.2 ⟨hall, missLines_allDefined d hci⟩
      rw [visit_wrong (s := { s with connectedLines := lines }) hp hn hi,
        wrongLines_cons_near rest hn, ← List.append_assoc]
      by_cases hpos : 0 < s.currentIndex
      · have hdraw : drawDots { s with connectedLines := lines ++ missLines s d } = .done _ :=
          drawDots_done_of hmiss (Or.inr (Or.inr hci))
        have hpos2 : 0 < ({ s with connectedLines := lines } : Session).currentIndex := hpos
        rw [if_pos hpos2]
        show (drawDots { s with connectedLines := lines ++ missLines s d }).andThen _ = _
        rw [hdraw, andThen_done]
        exact ih (i + 1) (lines ++ missLines s d) hp hci hmiss hrest
      · have hpos2 : ¬ 0 < ({ s with connectedLines := lines } : Session).currentIndex := hpos
        rw [if_neg hpos2, andThen_done]
        have hnone : missLines s d = [] := by
          unfold missLines
          rw [if_neg hpos]
        rw [hnone, List.append_nil]
        exact ih (i + 1) lines hp hci hall hrest

theorem andThen_assoc (o : Outcome) (f g : Session → Outcome) :
    (o.andThen f).andThen g = o.andThen fun s => (f s).andThen g := by
  cases o <;> rfl

theorem forEachDot_append (a b : List Dot) :
    ∀ (i : Nat) (s : Session),
      forEachDot (a ++ b) i s = (forEachDot a i s).andThen (forEachDot b (i + a.length)) := by
  induction a with
  | nil =>
    intro i s
    rfl
  | cons d rest ih =>
    intro i s
    rw [List.cons_append, forEachDot_cons, forEachDot_cons, andThen_assoc]
    congr 1
    funext t
    rw [ih (i + 1) t, List.length_cons]
    have hidx : i + 1 + rest.length = i + (rest.length + 1) := by omega
    rw [hidx]

/-- After a correct hit `dragPos` is null: the rest of the loop changes nothing. -/
theorem forEachDot_null (ds : List Dot) (i : Nat) {s : Session} (h : s.dragPos = none) :
    (forEachDot ds i s).state = s := by
  cases ds with
  | nil => rfl
  | cons d rest =>
    rw [forEachDot_cons, visit_null d i h, andThen_threw]
    rfl

/-- A loop in which the expected dot `d` is within reach: the dots before it
that are within reach get their incorrect lines, in array order, then `d` is
connected (and the level closed if `d` is the last dot); the dots after `d`
are not examined. -/
theorem forEachDot_hit {p : Pos} {s : Session} {d : Dot} (hp : s.dragPos = some p)
    (hwf : s.wf) (hd : s.dots[s.currentIndex]? = some d) (hnear : nearDot p d 14 = true) :
    (forEachDot s.dots 0 s).state.connectedLines =
        s.connectedLines ++ wrongLines s p (s.dots.take s.currentIndex) ++ hitLines s d ++
          (if s.currentIndex + 1 = s.dots.length then [closingLine s.dots] else []) ∧
      (forEachDot s.dots 0 s).state.currentIndex = s.currentIndex + 1 := by
  have hlt := lt_length_of_getElem? hd
  have hsplit : s.dots = s.dots.take s.currentIndex ++ d :: s.dots.drop (s.currentIndex + 1) := by
    have h1 := (List.take_append_drop s.currentIndex s.dots).symm
    rw [List.drop_eq_getElem_cons hlt] at h1
    have h2 : s.dots[s.currentIndex] = d := by
      rw [List.getElem?_eq_getElem hlt] at hd
      exact Option.some.inj hd
    rw [h2] at h1
    exact h1
  have hlen : (s.dots.take s.currentIndex).length = s.currentIndex := by
    rw [List.length_take]
    omega
  have hpre := forEachDot_no_hit (p := p) (s := s) (s.dots.take s.currentIndex) 0
    s.connectedLines hp hwf.1 hwf.2 (by
      intro j e hj _
      have := lt_length_of_getElem? hj
      omega)
  have hpre2 : forEachDot (s.dots.take s.currentIndex) 0 s =
      .done { s with connectedLines :=
        s.connectedLines ++ wrongLines s p (s.dots.take s.currentIndex) } := hpre
  have hallw : AllDefined (s.connectedLines ++ wrongLines s p (s.dots.take s.currentIndex)) := by
    refine allDefined_append.2 ⟨hwf.2, ?_⟩
    intro l hl
    unfold wrongLines at hl
    split at hl
    · rw [List.mem_map] at hl
      obtain ⟨e, _, rfl⟩ := hl
      have hlt1 : s.currentIndex - 1 < s.dots.length := by omega
      simp [List.getElem?_eq_getElem hlt1]
    · cases hl
  have hvisit := visit_correct
    (s := { s with connectedLines :=
      s.connectedLines ++ wrongLines s p (s.dots.take s.currentIndex) })
    (i := s.currentIndex) hp hnear rfl hd hallw
  have hloop : forEachDot s.dots 0 s = (forEachDot (s.dots.take s.currentIndex) 0 s).andThen
      (forEachDot (d :: s.dots.drop (s.currentIndex + 1)) s.currentIndex) := by
    have h := forEachDot_append (s.dots.take s.currentIndex)
      (d :: s.dots.drop (s.currentIndex + 1)) 0 s
    rw [← hsplit, hlen, Nat.zero_add] at h
    exact h
  rw [hloop, hpre2, andThen_done, forEachDot_cons, hvisit]
  by_cases hn : s.currentIndex + 1 = s.dots.length
  · have hn2 : ({ s with connectedLines :=
        s.connectedLines ++ wrongLines s p (s.dots.take s.currentIndex) } :
          Session).currentIndex + 1 = s.dots.length := hn
    rw [if_pos hn2, if_pos hn, andThen_done, forEachDot_null _ _ (by simp [afterCompletion, beforeShow])]
    simp [afterCompletion, beforeShow, hitLines]
  · have hn2 : ¬ ({ s with connectedLines :=
        s.connectedLines ++ wrongLines s p (s.dots.take s.currentIndex) } :
          Session).currentIndex + 1 = s.dots.length := hn
    rw [if_neg hn2, if_neg hn, andThen_done, forEachDot_null _ _ (by simp [afterHit])]
    simp [afterHit, hitLines]

/-- What one `onMove` appends on a dragging session of the data model with
time left.  When the expected dot is out of reach, every dot within reach gets
its incorrect line, in array order; when the expected dot is within reach, the
dots before it that are within reach get their incorrect lines in array order
and then the expected dot is connected, and nothing more is appended.  And
there is a level, a dragging state with `timeLeft > 0` reached in a round and
a pointer position within the radius of two dots for which one `onMove` call
appends an incorrect line (to the farther dot) and then a correct line (to the
nearer dot). -/
theorem onMove_lines_in_array_order :
    (∀ (s : Session) (p : Pos), s.isDragging = true → 0 < s.timeLeft → s.wf →
      (∀ d, s.dots[s.currentIndex]? = some d → nearDot p d 14 = false) →
      (onMove s p).state.connectedLines =
        s.connectedLines ++
          if 0 < s.currentIndex then
            (s.dots.filter fun e => nearDot p e 14).map fun e =>
              { fromDot := s.dots[s.currentIndex - 1]?, toDot := some e, correct := false }
          else []) ∧
    (∀ (s : Session) (p : Pos) (d : Dot), s.isDragging = true → 0 < s.timeLeft → s.wf →
      s.dots[s.currentIndex]? = some d → nearDot p d 14 = true →
      (onMove s p).state.currentIndex = s.currentIndex + 1 ∧
      (onMove s p).state.connectedLines =
        s.connectedLines ++
          (if 0 < s.currentIndex then
            ((s.dots.take s.currentIndex).filter fun e => nearDot p e 14).map fun e =>
              { fromDot := s.dots[s.currentIndex - 1]?, toDot := some e, correct := false }
          else []) ++
          (if 0 < s.currentIndex then
            [{ fromDot := s.dots[s.currentIndex - 1]?, toDot := some d, correct := true }]
          else []) ++
          (if s.currentIndex + 1 = s.dots.length then
            [{ fromDot := s.dots[s.dots.length - 1]?, toDot := s.dots[0]?, correct := true }]
          else [])) ∧
    (∃ (s : Session) (p : Pos) (a b : Dot),
      (∃ s0 evs, s = run (setupGame s0).state evs) ∧
      s.isDragging = true ∧ 0 < s.timeLeft ∧
      s.dots[0]? = some a ∧ s.dots[1]? = some b ∧
      nearDot p a 14 = true ∧ nearDot p b 14 = true ∧
      (p.x - b.x) * (p.x - b.x) + (p.y - b.y) * (p.y - b.y) <
        (p.x - a.x) * (p.x - a.x) + (p.y - a.y) * (p.y - a.y) ∧
      (onMove s p).state.connectedLines =
        s.connectedLines ++
          [{ fromDot := some a, toDot := some a, correct := false },
            { fromDot := some a, toDot := some b, correct := true }]) := by
  refine ⟨?_, ?_, ?_⟩
  · intro s p hdrag htime hwf hfar
    rw [onMove_active p hdrag htime]
    have hdraw : drawDots { s with dragPos := some p } = .done { s with dragPos := some p } :=
      drawDots_done_of hwf.2 (Or.inr (Or.inr hwf.1))
    rw [hdraw, andThen_done]
    have h := forEachDot_no_hit (p := p) (s := { s with dragPos := some p }) s.dots 0
      s.connectedLines rfl hwf.1 hwf.2 (by
        intro j e hj hn hji
        rw [Nat.zero_add] at hji
        rw [hji] at hj
        have := hfar e hj
        rw [hn] at this
        cases this)
    have h2 : forEachDot s.dots 0 { s with dragPos := some p } = _ := h
    rw [show forEachDot ({ s with dragPos := some p } : Session).dots 0
      { s with dragPos := some p } = _ from h2]
    rfl
  · intro s p d hdrag htime hwf hd hnear
    rw [onMove_active p hdrag htime]
    have hdraw : drawDots { s with dragPos := some p } = .done { s with dragPos := some p } :=
      drawDots_done_of hwf.2 (Or.inr (Or.inr hwf.1))
    rw [hdraw, andThen_done]
    have h := forEachDot_hit (p := p) (s := { s with dragPos := some p }) (d := d)
      rfl hwf hd hnear
    exact ⟨h.2, h.1⟩
  · exact ⟨overlapDrag, ⟨6, 0⟩, ⟨0, 0⟩, ⟨10, 0⟩,
      ⟨loaded "medium" overlapDots, [.pointerDown ⟨-5, 0⟩, .pointerMove ⟨-5, 0⟩], rfl⟩,
      by decide, by decide, by decide, by decide, by decide, by decide, by decide, by decide⟩

/-- C10: the code does not examine every dot within the hit radius.  On the
level `(0,0)`, `(10,0)`, `(12,0)` with dot 0 connected (a state reached in a
round, dragging, `timeLeft > 0`) and the pointer at `(6,0)`, all three dots
are within the radius.  One `onMove` call examines dot 0 (incorrect line
`(0,0) -> (0,0)`) and dot 1 (the expected dot: correct line `(0,0) -> (10,0)`,
`currentIndex` becomes 2, `dragPos` becomes null) and then raises on the null
`dragPos` when it comes to dot 2: dot 2, within the radius and by then the
expected dot, is never examined, no line ends in it and `currentIndex`
stays 2. -/
theorem dot_after_correct_hit_not_examined :
    (∃ s0 evs, tripleDrag = run (setupGame s0).state evs) ∧
      tripleDrag.isDragging = true ∧ 0 < tripleDrag.timeLeft ∧
      tripleDrag.currentIndex = 1 ∧
      tripleDrag.dots = [⟨0, 0⟩, ⟨10, 0⟩, ⟨12, 0⟩] ∧
      (∀ d ∈ tripleDrag.dots, nearDot ⟨6, 0⟩ d 14 = true) ∧
      (∃ t, onMove tripleDrag ⟨6, 0⟩ = .threw t ∧ t.dragPos = none) ∧
      (onMove tripleDrag ⟨6, 0⟩).state.connectedLines =
        tripleDrag.connectedLines ++
          [{ fromDot := some ⟨0, 0⟩, toDot := some ⟨0, 0⟩, correct := false },
            { fromDot := some ⟨0, 0⟩, toDot := some ⟨10, 0⟩, correct := true }] ∧
      (∀ l ∈ (onMove tripleDrag ⟨6, 0⟩).state.connectedLines, l.toDot ≠ some ⟨12, 0⟩) ∧
      (onMove tripleDrag ⟨6, 0⟩).state.currentIndex = 2 ∧
      (onMove tripleDrag ⟨6, 0⟩).state.dots[2]? = some ⟨12, 0⟩ := by
  refine ⟨⟨loaded "medium" tripleDots, [.pointerDown ⟨-5, 0⟩, .pointerMove ⟨-5, 0⟩], rfl⟩,
    by decide, by decide, by decide, by decide, by decide, ?_, by decide, by decide,
    by decide, by decide⟩
  exact ⟨_, rfl, by decide⟩

end ConnectDots
